import Mathlib

/-!
# Value renderer (`types/valuerenderer/valuerenderer.go`)

A shallow embedding of `DefaultValueRenderer`: the unit conversion `ComputeAmount`,
the formatter `Format` and the parser `Parse` with its helper `coinFromString`.

Conventions of the embedding.

* A Go `string` is a sequence of bytes.  It is embedded as a Lean `String` whose
  characters stand for the bytes (a byte `b` is the character of code point `b`).
* A Go call that returns `(v, err)` is embedded as a function into a pair or into `Outcome`;
  a call that may abort (a Go `panic`, or a result the reference leaves undefined)
  is embedded into `Option`, with `none` for "no result", or into `Outcome`, with `abort`.
* `types.Int`, `types.Dec`, `types.Coin` and `banktypes.Metadata` are declared outside
  the files at hand; their models are marked as such below.
-/

namespace ValueRenderer

/-! ## Machine integers -/

/-- Largest value of a Go `int64`. -/
def maxInt64 : Int := 2 ^ 63 - 1

/-- Smallest value of a Go `int64`. -/
def minInt64 : Int := -(2 ^ 63)

/-- Largest value of a Go `uint64`. -/
def maxUint64 : Nat := 2 ^ 64 - 1

/-- Go `(*big.Int).IsInt64`: the integer is representable as an `int64`. -/
def IsInt64 (x : Int) : Bool := decide (minInt64 ≤ x) && decide (x ≤ maxInt64)

/-- Two-complement reduction of an integer to the `int64` range. -/
def wrapInt64 (x : Int) : Int := (x + 2 ^ 63) % 2 ^ 64 - 2 ^ 63

/-! ## Data model -/

/-- Go `banktypes.DenomUnit`: a denomination name, its exponent (a `uint32`) and aliases. -/
structure DenomUnit where
  Denom : String
  Exponent : Nat
  Aliases : List String
  deriving DecidableEq, Repr

/-- Go `banktypes.Metadata`, with the fields the renderer reads. -/
structure Metadata where
  Description : String
  DenomUnits : List DenomUnit
  Base : String
  Display : String
  deriving DecidableEq, Repr

/-- Modelled from the spec: `types.Coin` is declared outside the files at hand. It pairs a
denomination name with an amount; the amount is a `types.Int`, an integer of
"arbitrary/large range", embedded as a Lean `Int`. -/
structure Coin where
  Denom : String
  Amount : Int
  deriving DecidableEq, Repr

/-- Go `DefaultValueRenderer`. The `bankKeeper` field is an external collaborator that neither
`Format`, `ComputeAmount` nor `Parse` reads; only the metadata is kept. -/
structure DefaultValueRenderer where
  metaData : Metadata
  deriving DecidableEq, Repr

/-! ## Helpers of `types.Int` and `types.Dec` used by `ComputeAmount` -/

/-- Modelled from the spec: `types.Int.Int64` is declared outside the files at hand. It converts
an integer to `int64`; the spec calls a result beyond the 64-bit signed range undefined in the
reference, so there is no result (`none`) in that case. -/
def Int64 (x : Int) : Option Int := if IsInt64 x then some x else none

/-- Number of fractional digits of a fixed-point `types.Dec`. -/
def Precision : Nat := 18

/-- Modelled from the spec: `types.NewDecFromIntWithPrec` is declared outside the files at hand.
It converts the amount `i` to a fixed-point decimal with `prec` fractional digits, that is the
decimal `i / 10 ^ prec`, held as the integer `i * 10 ^ (18 - prec)` of 18 fractional digits.
The spec fixes no result for more than 18 fractional digits (`none`). -/
def NewDecFromIntWithPrec (i : Int) (prec : Nat) : Option Int :=
  if prec ≤ Precision then some (i * 10 ^ (Precision - prec)) else none

/-- Modelled from the spec: `types.Dec.TruncateInt64` is declared outside the files at hand. It
keeps only the integer part of the fixed-point decimal (truncation, no rounding) and converts
it to `int64`. -/
def TruncateInt64 (d : Int) : Option Int := Int64 (Int.tdiv d (10 ^ Precision))

/-- Go conversion `int64(f)` of a `float64` that holds the integer `x`. A value in the `int64`
range converts exactly; for a value out of range the Go specification leaves the result
implementation-dependent, and it is whatever `int64` the parameter `ovf` determines. -/
def float64ToInt64 (ovf : Int → Int) (x : Int) : Int :=
  if IsInt64 x then x else wrapInt64 (ovf x)

/-! ## `ComputeAmount` -/

/-- One iteration of the loop of `ComputeAmount` over `dvr.metaData.DenomUnits`; the state is
the pair `(coinExp, displayExp)`. -/
def scanStep (coinDenom display : String) (st : Int × Int) (denomUnit : DenomUnit) : Int × Int :=
  let coinExp := if denomUnit.Denom = coinDenom then (denomUnit.Exponent : Int) else st.1
  let displayExp := if denomUnit.Denom = display then (denomUnit.Exponent : Int) else st.2
  (coinExp, displayExp)

/-- The loop of `ComputeAmount`: both exponents start at zero. -/
def scanExponents (dvr : DefaultValueRenderer) (coin : Coin) : Int × Int :=
  dvr.metaData.DenomUnits.foldl (scanStep coin.Denom dvr.metaData.Display) (0, 0)

/-- Go `DefaultValueRenderer.ComputeAmount`. `expSub` is the `float64` of an integer difference
of two `uint32` values, which is exact, and `math.Signbit` of it holds exactly when it is
negative. `math.Pow(10, expSub)` is the power of ten, converted to `int64` by
`float64ToInt64`. The `default` case of the `switch` is unreachable. -/
def ComputeAmount (ovf : Int → Int) (dvr : DefaultValueRenderer) (coin : Coin) : Option Int :=
  let exps := scanExponents dvr coin
  let coinExp := exps.1
  let displayExp := exps.2
  let expSub : Int := displayExp - coinExp
  if expSub < 0 then
    (NewDecFromIntWithPrec coin.Amount expSub.natAbs).bind TruncateInt64
  else
    Int64 (coin.Amount * float64ToInt64 ovf (10 ^ expSub.toNat))

/-! ## Errors -/

/-- The two causes carried by a Go `*strconv.NumError`. -/
inductive NumErrKind where
  | ErrSyntax
  | ErrRange
  deriving DecidableEq, Repr

/-- Go `error` values the renderer returns: `errors.New(msg)`, or the `*strconv.NumError`
that `strconv.ParseUint` produces (function name, offending input, cause). -/
inductive Error where
  | New (msg : String)
  | NumError (Func : String) (Num : String) (Err : NumErrKind)
  deriving DecidableEq, Repr

/-! ## Standard-library functions (`strings`, `strconv`, `unicode`, `regexp`) -/

/-- ASCII decimal digit, the class `'0' <= c && c <= '9'` of `strconv` and `\d` of `regexp`. -/
def isDigit (c : Char) : Bool := decide (48 ≤ c.toNat) && decide (c.toNat ≤ 57)

/-- Value `c - '0'` of a digit byte. -/
def digitVal (c : Char) : Nat := c.toNat - 48

/-- Value of a run of decimal digits, most significant digit first. -/
def decVal (l : List Char) : Nat := l.foldl (fun v c => 10 * v + digitVal c) 0

/-- Go `unicode.IsLetter(rune(b))` for a byte `b`: the letters of Latin-1. -/
def IsLetter (c : Char) : Bool :=
  let n := c.toNat
  (decide (65 ≤ n) && decide (n ≤ 90)) || (decide (97 ≤ n) && decide (n ≤ 122))
    || n == 0xAA || n == 0xB5 || n == 0xBA
    || (decide (0xC0 ≤ n) && decide (n ≤ 0xD6)) || (decide (0xD8 ≤ n) && decide (n ≤ 0xF6))
    || (decide (0xF8 ≤ n) && decide (n ≤ 0xFF))

/-- Go `strings.ReplaceAll(s, ",", "")`: every comma is removed. -/
def removeCommas (s : String) : String := ⟨s.data.filter (fun c => c != ',')⟩

/-- Segments of a byte sequence separated by `sep`. -/
def splitChars (sep : Char) : List Char → List Char → List (List Char)
  | cur, [] => [cur.reverse]
  | cur, c :: cs => if c = sep then cur.reverse :: splitChars sep [] cs
                    else splitChars sep (c :: cur) cs

/-- Go `strings.Split(s, ".")`. -/
def Split (s : String) : List String := (splitChars '.' [] s.data).map String.mk

/-- The loop of `strconv.ParseUint(s, 10, 64)` over the bytes of `s`: `n` is the value read so
far; the result is the pair `(value, err)` that Go returns. `cutoff` is `maxUint64/10 + 1`, and
the sum `n*10 + d` is taken modulo `2 ^ 64` as in Go. -/
def parseUintLoop (s0 : String) : Nat → List Char → Nat × Option Error
  | n, [] => (n, none)
  | n, c :: cs =>
    if isDigit c then
      let d := digitVal c
      if n ≥ maxUint64 / 10 + 1 then (maxUint64, some (.NumError "ParseUint" s0 .ErrRange))
      else
        let n10 := n * 10
        let n1 := (n10 + d) % 2 ^ 64
        if n1 < n10 ∨ n1 > maxUint64 then (maxUint64, some (.NumError "ParseUint" s0 .ErrRange))
        else parseUintLoop s0 n1 cs
    else (0, some (.NumError "ParseUint" s0 .ErrSyntax))

/-- Go `strconv.ParseUint(s, 10, 64)`. -/
def ParseUint (s : String) : Nat × Option Error :=
  if s = "" then (0, some (.NumError "ParseUint" s .ErrSyntax))
  else parseUintLoop s 0 s.data

/-- Go `strconv.ParseInt(s0, 10, 64)` once the leading sign has been picked off: `neg` tells
whether the sign was `-` and `s` is the rest. `ParseUint` reads `s`; a syntax error is
returned under the name of `ParseInt`, and the value is checked against `cutoff = 2 ^ 63`. -/
def parseIntUnsigned (s0 : String) (neg : Bool) (s : String) : Int × Option Error :=
  match ParseUint s with
  | (_, some (.NumError _ _ .ErrSyntax)) => (0, some (.NumError "ParseInt" s0 .ErrSyntax))
  | (_, some (.New msg)) => (0, some (.New msg))
  | (un, _) =>
    if neg = false ∧ un ≥ 2 ^ 63 then (maxInt64, some (.NumError "ParseInt" s0 .ErrRange))
    else if neg = true ∧ un > 2 ^ 63 then (minInt64, some (.NumError "ParseInt" s0 .ErrRange))
    else if neg = true then (-(un : Int), none) else ((un : Int), none)

/-- Go `strconv.ParseInt(s0, 10, 64)`: an optional leading `+` or `-`, then the unsigned part. -/
def ParseInt (s0 : String) : Int × Option Error :=
  if s0 = "" then (0, some (.NumError "ParseInt" s0 .ErrSyntax))
  else
    match s0.data with
    | '+' :: rest => parseIntUnsigned s0 false ⟨rest⟩
    | '-' :: rest => parseIntUnsigned s0 true ⟨rest⟩
    | _ => parseIntUnsigned s0 false s0

/-- The tail `[mu]?regen` of the pattern, anchored at the head of the list. -/
def matchTail (l : List Char) : Bool :=
  "regen".data.isPrefixOf l ||
    match l with
    | c :: t => (c == 'm' || c == 'u') && "regen".data.isPrefixOf t
    | [] => false

/-- The pattern after a first digit has been read: more digits, then the tail. -/
def matchDigits : List Char → Bool
  | [] => false
  | c :: t => matchTail (c :: t) || (isDigit c && matchDigits t)

/-- The pattern `\d+[mu]?regen` anchored at the head of the list. -/
def matchHere : List Char → Bool
  | [] => false
  | c :: t => isDigit c && matchDigits t

/-- Search for a match of the pattern starting at any position. -/
def matchAnywhere : List Char → Bool
  | [] => false
  | c :: t => matchHere (c :: t) || matchAnywhere t

/-- Go `regexp.MustCompile("\\d+[mu]?regen").MatchString(s)`: the string contains a match. -/
def MatchString (s : String) : Bool := matchAnywhere s.data

/-! ## Digit grouping: `message.NewPrinter(language.English).Sprintf("%d", n)` -/

/-- Insertion of a comma after every third digit, on the digits listed from the least
significant one. -/
def groupRev : List Char → List Char
  | a :: b :: c :: d :: rest => a :: b :: c :: ',' :: groupRev (d :: rest)
  | l => l

/-- The English printer on a natural number: decimal digits with a comma before every group
of three digits counted from the right. -/
def groupNat (n : Nat) : List Char := (groupRev (Nat.toDigits 10 n).reverse).reverse

/-- Go `p.Sprintf("%d", n)` for the English printer `p` and an `int64` `n`. -/
def Sprintf (n : Int) : String :=
  if n < 0 then ⟨'-' :: groupNat n.natAbs⟩ else ⟨groupNat n.natAbs⟩

/-! ## Values handed to `Format` and returned by `Parse` -/

/-- The ways a Go call of result type `(T, error)` ends: it returns `(v, nil)`, it returns an
error `e` along with a zero value, or it does not return because a callee panics. -/
inductive Outcome (α : Type) where
  | ok (v : α)
  | error (e : Error)
  | abort
  deriving DecidableEq, Repr

/-- The dynamic types behind the `interface{}` argument of `Format` and result of `Parse`.

* `Dec s`: a `types.Dec`, given by the string `s` that its `String()` method returns (the
  spec: "a string-backed fixed-point number"); `Format` reads nothing else of it.
* `Int s i`: a `types.Int`, given by the string `s` that its `String()` method returns and by
  its integer value `i`.
* `Coin c`: a `types.Coin`.
* `Uint u`: a `types.Uint`, what `Parse` returns for a plain number.
* `Other`: a value of any other type. -/
inductive Value where
  | Dec (s : String)
  | Int (s : String) (i : Int)
  | Coin (c : Coin)
  | Uint (u : Nat)
  | Other
  deriving DecidableEq, Repr

/-! ## `Format` -/

/-- Go `DefaultValueRenderer.Format`. The result is `none` when a helper has no result, and
otherwise the pair `(string, err)` that Go returns. The type assertions after the type switch
cannot fail. -/
def Format (ovf : Int → Int) (dvr : DefaultValueRenderer) : Value → Option (String × Option Error)
  | .Dec s =>
    if s.length = 0 then some ("", some (.New "empty string"))
    else
      match Split s with
      | [s0, s1] =>
        match ParseInt s0 with
        | (_, some _) => some ("", some (.New "unable to convert string to int64"))
        | (i64, none) => some (Sprintf i64 ++ "." ++ s1, none)
      | _ => some ("", none)
  | .Int s i =>
    if s.length = 0 then some ("", some (.New "empty string"))
    else (Int64 i).map (fun v => (Sprintf v, none))
  | .Coin coin =>
    (ComputeAmount ovf dvr coin).map (fun v => (Sprintf v ++ dvr.metaData.Display, none))
  | _ => some ("", none)

/-! ## `Parse` and `coinFromString` -/

/-- The backward loop of `coinFromString`: `i + 1` positions remain to be visited; the result
is the index of the last byte that is not a letter, or `dflt` when every byte is a letter. -/
def lastNonLetter (s : List Char) (dflt : Int) : Nat → Int
  | 0 => dflt
  | i + 1 => if IsLetter (s.getD i ' ') then lastNonLetter s dflt i else (i : Int)

/-- Digit value that the number scanner of `math/big` gives a byte: `0` to `9`, then the letters
of either case from 10 on, and `MaxBase + 1 = 63` for any other byte. -/
def scanDigitVal (ch : Char) : Nat :=
  let n := ch.toNat
  if 48 ≤ n ∧ n ≤ 57 then n - 48
  else if 97 ≤ n ∧ n ≤ 122 then n - 97 + 10
  else if 65 ≤ n ∧ n ≤ 90 then n - 65 + 10
  else 63

/-- State of the digit loop of the number scanner of `math/big`: `prev` is the kind of the byte
seen before (`'_'`, `'0'` for a digit, `'.'` for anything else), `invalSep` records a
misplaced `_`, `count` is the number of digits read and `z` their value. -/
structure ScanState where
  prev : Char
  invalSep : Bool
  count : Nat
  z : Nat
  deriving DecidableEq, Repr

/-- The digit loop of the number scanner of `math/big` in base `b`, for a number read with base
argument 0: a `_` is a separator, valid only after a digit; a digit below `b` is added to the
value; any other byte ends the loop and is left unread. The result is the final state and the
unread bytes. -/
def scanLoop (b : Nat) : ScanState → List Char → ScanState × List Char
  | st, [] => (st, [])
  | st, ch :: rest =>
    if ch = '_' then
      scanLoop b { st with invalSep := st.invalSep || (st.prev != '0'), prev := '_' } rest
    else if scanDigitVal ch ≥ b then (st, ch :: rest)
    else
      scanLoop b
        { prev := '0', invalSep := st.invalSep, count := st.count + 1,
          z := st.z * b + scanDigitVal ch } rest

/-- The end of the number scanner of `math/big`: a misplaced or trailing `_` is an error, and
so is a number without digits, unless it is the lone octal mark `0`, which reads as zero. -/
def scanFinish (octalMark : Bool) (st : ScanState) : Option Nat :=
  let sepErr : Bool := st.invalSep || (st.prev == '_')
  if st.count = 0 then
    if octalMark then (if sepErr then none else some 0) else none
  else if sepErr then none else some st.z

/-- The number scanner of `math/big` for an unsigned number read with base argument 0. A
leading `0b`, `0o`, `0x` (in either case) selects base 2, 8, 16, a leading `0` before any other
byte selects base 8, and the base is 10 otherwise. The result is the value, when there is no
error, and the bytes left unread. -/
def natScan (l : List Char) : Option Nat × List Char :=
  match l with
  | '0' :: [] => (scanFinish false ⟨'0', false, 1, 0⟩, [])
  | '0' :: ch :: rest =>
    if ch = 'b' ∨ ch = 'B' then
      let r := scanLoop 2 ⟨'0', false, 0, 0⟩ rest
      (scanFinish false r.1, r.2)
    else if ch = 'o' ∨ ch = 'O' then
      let r := scanLoop 8 ⟨'0', false, 0, 0⟩ rest
      (scanFinish false r.1, r.2)
    else if ch = 'x' ∨ ch = 'X' then
      let r := scanLoop 16 ⟨'0', false, 0, 0⟩ rest
      (scanFinish false r.1, r.2)
    else
      let r := scanLoop 8 ⟨'0', false, 0, 0⟩ (ch :: rest)
      (scanFinish true r.1, r.2)
  | _ =>
    let r := scanLoop 10 ⟨'.', false, 0, 0⟩ l
    (scanFinish false r.1, r.2)

/-- Go `new(big.Int).SetString(s, 0)`: an optional sign `+` or `-`, then an unsigned number
that must use up the whole string; `none` when the call reports failure. -/
def SetString (s : String) : Option Int :=
  match s.data with
  | [] => none
  | '-' :: rest =>
    match natScan rest with
    | (some v, []) => some (-(v : Int))
    | _ => none
  | '+' :: rest =>
    match natScan rest with
    | (some v, []) => some (v : Int)
    | _ => none
  | l =>
    match natScan l with
    | (some v, []) => some (v : Int)
    | _ => none

/-- Modelled from the spec: `types.NewIntFromString` is declared outside the files at hand; the
spec says that the numeric part is read as an integer of "arbitrary/large range". The helper of
the SDK reads the string with `big.Int.SetString(s, 0)`, so that a sign, a base mark and `_`
between digits are accepted and a leading `0` selects base 8, and it refuses a value of more
than 256 bits. -/
def NewIntFromString (s : String) : Option Int :=
  match SetString s with
  | none => none
  | some i => if i.natAbs < 2 ^ 256 then some i else none

/-- ASCII letter, the class `[a-zA-Z]`. -/
def isAsciiLetter (c : Char) : Bool :=
  (decide (65 ≤ c.toNat) && decide (c.toNat ≤ 90)) ||
    (decide (97 ≤ c.toNat) && decide (c.toNat ≤ 122))

/-- The class `[a-zA-Z0-9/:._-]` of the bytes of a denomination after the first. -/
def isDenomByte (c : Char) : Bool :=
  isAsciiLetter c || isDigit c || c == '/' || c == ':' || c == '.' || c == '_' || c == '-'

/-- Modelled from the spec: `types.ValidateDenom` is declared outside the files at hand. The
helper of the SDK matches the whole name against `[a-zA-Z][a-zA-Z0-9/:._-]{2,127}`. -/
def ValidateDenom (denom : String) : Bool :=
  match denom.data with
  | [] => false
  | c :: t =>
    isAsciiLetter c && decide (2 ≤ t.length) && decide (t.length ≤ 127) && t.all isDenomByte

/-- Modelled from the spec: `types.NewCoin` is declared outside the files at hand; the spec says
"Construct and return an Amount(numeric part, denomination)". The helper of the SDK validates
the coin first and panics (`none`) on an invalid denomination or a negative amount. -/
def NewCoin (denom : String) (amount : Int) : Option Coin :=
  if ValidateDenom denom = true ∧ 0 ≤ amount then some ⟨denom, amount⟩ else none

/-- Go `coinFromString`. -/
def coinFromString (s : String) : Outcome Coin :=
  let len : Int := s.data.length
  let index : Int := lastNonLetter s.data (len - 1) s.data.length
  if index = len - 1 then .error (.New "no denom has been found")
  else
    let denom : String := ⟨s.data.drop (index + 1).toNat⟩
    let amount : String := ⟨s.data.take (index + 1).toNat⟩
    match NewIntFromString amount with
    | none => .error (.New "unable convert amountStr to int64")
    | some amountInt =>
      match NewCoin denom amountInt with
      | none => .abort
      | some coin => .ok coin

/-- Modelled from the spec: `types.NewUint` is declared outside the files at hand; it wraps an
unsigned 64-bit integer. -/
def NewUint (i : Nat) : Value := .Uint i

/-- Go `DefaultValueRenderer.Parse`: `.error e` stands for the result `(nil, e)`. -/
def Parse (s : String) : Outcome Value :=
  if s = "" then .error (.New "unable to parse empty string")
  else
    let str := removeCommas s
    if MatchString str then
      match coinFromString str with
      | .error err => .error err
      | .abort => .abort
      | .ok coin => .ok (.Coin coin)
    else
      match ParseUint str with
      | (_, some err) => .error err
      | (i, none) => .ok (NewUint i)

/-! ## Vocabulary of the statements -/

/-- The exponent that a list of denomination units gives the denomination `d`: every unit
named `d` carries the exponent `e`, and `e` is zero when no unit is named `d`. -/
def hasExponent (units : List DenomUnit) (d : String) (e : Nat) : Prop :=
  (∀ u ∈ units, u.Denom = d → u.Exponent = e) ∧ ((∀ u ∈ units, u.Denom ≠ d) → e = 0)

instance (units : List DenomUnit) (d : String) (e : Nat) : Decidable (hasExponent units d e) := by
  unfold hasExponent
  infer_instance

/-- The metadata of the spec scenarios: `uregen` (exponent 6), `mregen` (exponent 3) and `regen`
(exponent 0), displayed in `regen`. -/
def regenMetadata : Metadata :=
  ⟨"", [⟨"uregen", 6, []⟩, ⟨"mregen", 3, []⟩, ⟨"regen", 0, []⟩], "uregen", "regen"⟩

/-- The same units, displayed in `uregen`. -/
def uregenMetadata : Metadata :=
  ⟨"", [⟨"uregen", 6, []⟩, ⟨"mregen", 3, []⟩, ⟨"regen", 0, []⟩], "uregen", "uregen"⟩

/-- A decimal literal of an unsigned 64-bit integer: a non-empty run of decimal digits whose
value is at most `2 ^ 64 - 1`. -/
def uintLiteral (l : List Char) : Prop :=
  l ≠ [] ∧ (∀ c ∈ l, isDigit c = true) ∧ decVal l ≤ 2 ^ 64 - 1

instance (l : List Char) : Decidable (uintLiteral l) := by
  unfold uintLiteral
  infer_instance

/-! ## Vocabulary of the statements: digit grouping -/

/-- Groups of three elements taken from the head of a list; the last group holds what is left. -/
def chunks3 : List Char → List (List Char)
  | a :: b :: c :: d :: rest => [a, b, c] :: chunks3 (d :: rest)
  | l => [l]

/-- The digits split into groups of three counted from the right. -/
def groupsOfThree (ds : List Char) : List (List Char) :=
  ((chunks3 ds.reverse).map List.reverse).reverse

/-- The groups joined by `,`. -/
def joinGroups : List (List Char) → List Char
  | [] => []
  | [g] => g
  | g :: h :: gs => g ++ ',' :: joinGroups (h :: gs)

/-- The grouped rendering in the words of the spec: the decimal digits of `n` split into groups
of three counted from the right and joined by `,`, with the sign, if any, in front. -/
def groupedDecimal (n : Int) : String :=
  ⟨(if n < 0 then ['-'] else []) ++ joinGroups (groupsOfThree (Nat.toDigits 10 n.natAbs))⟩

/-- The value of a signed 64-bit decimal integer literal: an optional sign `+` or `-`, then a
non-empty run of decimal digits, denoting a value from `-2 ^ 63` to `2 ^ 63 - 1`; `none` when
the bytes are no such literal. -/

def intLiteralValue (l : List Char) : Option Int :=
  let neg : Bool := l.head? = some '-'
  let d : List Char := if l.head? = some '+' ∨ l.head? = some '-' then l.tail else l
  if d ≠ [] ∧ (∀ c ∈ d, isDigit c = true) then
    let v : Int := if neg then -(decVal d : Int) else (decVal d : Int)
    if -(2 ^ 63) ≤ v ∧ v ≤ 2 ^ 63 - 1 then some v else none
  else none

/-! ## The metadata accessors of the renderer -/

/-- Go `DefaultValueRenderer.GetDenomMetadata`. -/
def GetDenomMetadata (dvr : DefaultValueRenderer) : Metadata := dvr.metaData

/-- Go `DefaultValueRenderer.SetDenomMetadata`. The method has a value receiver: inside it `dvr`
is a copy of the renderer it is called on, the assignment `dvr.metaData = metaData` changes
that copy, and the copy is dropped when the method returns. The result is the pair of the
renderer of the caller after the call and of the copy at the end of the body. -/
def SetDenomMetadata (dvr : DefaultValueRenderer) (metaData : Metadata) :
    DefaultValueRenderer × DefaultValueRenderer :=
  let receiver : DefaultValueRenderer := { dvr with metaData := metaData }
  (dvr, receiver)

/-! # Theorems -/

/-! ## The loop of `ComputeAmount` -/

theorem scan_fst (cd dd : String) (e : Int) :
    ∀ (units : List DenomUnit) (st : Int × Int),
      (∀ u ∈ units, u.Denom = cd → (u.Exponent : Int) = e) →
      (st.1 = e ∨ ∃ u ∈ units, u.Denom = cd) →
      (units.foldl (scanStep cd dd) st).1 = e := by
  intro units
  induction units with
  | nil =>
    intro st _ h
    rcases h with h | ⟨u, hu, _⟩
    · simpa using h
    · simp at hu
  | cons u us ih =>
    intro st hall h
    simp only [List.foldl_cons]
    apply ih
    · intro v hv hd
      exact hall v (List.mem_cons_of_mem _ hv) hd
    · by_cases hud : u.Denom = cd
      · left
        simp [scanStep, hud, hall u (List.mem_cons_self _ _) hud]
      · rcases h with h | ⟨v, hv, hvd⟩
        · left
          simp [scanStep, hud, h]
        · rcases List.mem_cons.mp hv with rfl | hv
          · exact absurd hvd hud
          · exact Or.inr ⟨v, hv, hvd⟩

theorem scan_snd (cd dd : String) (e : Int) :
    ∀ (units : List DenomUnit) (st : Int × Int),
      (∀ u ∈ units, u.Denom = dd → (u.Exponent : Int) = e) →
      (st.2 = e ∨ ∃ u ∈ units, u.Denom = dd) →
      (units.foldl (scanStep cd dd) st).2 = e := by
  intro units
  induction units with
  | nil =>
    intro st _ h
    rcases h with h | ⟨u, hu, _⟩
    · simpa using h
    · simp at hu
  | cons u us ih =>
    intro st hall h
    simp only [List.foldl_cons]
    apply ih
    · intro v hv hd
      exact hall v (List.mem_cons_of_mem _ hv) hd
    · by_cases hud : u.Denom = dd
      · left
        simp [scanStep, hud, hall u (List.mem_cons_self _ _) hud]
      · rcases h with h | ⟨v, hv, hvd⟩
        · left
          simp [scanStep, hud, h]
        · rcases List.mem_cons.mp hv with rfl | hv
          · exact absurd hvd hud
          · exact Or.inr ⟨v, hv, hvd⟩

/-- The loop of `ComputeAmount` finds the exponents that the units give the two names. -/
theorem scanExponents_eq (dvr : DefaultValueRenderer) (coin : Coin) (eSrc eDisp : Nat)
    (hsrc : hasExponent dvr.metaData.DenomUnits coin.Denom eSrc)
    (hdisp : hasExponent dvr.metaData.DenomUnits dvr.metaData.Display eDisp) :
    scanExponents dvr coin = ((eSrc : Int), (eDisp : Int)) := by
  have h1 : (scanExponents dvr coin).1 = (eSrc : Int) := by
    apply scan_fst
    · intro u hu hd
      exact_mod_cast hsrc.1 u hu hd
    · by_cases hex : ∃ u ∈ dvr.metaData.DenomUnits, u.Denom = coin.Denom
      · exact Or.inr hex
      · left
        have : eSrc = 0 := hsrc.2 (fun u hu hd => hex ⟨u, hu, hd⟩)
        simp [this]
  have h2 : (scanExponents dvr coin).2 = (eDisp : Int) := by
    apply scan_snd
    · intro u hu hd
      exact_mod_cast hdisp.1 u hu hd
    · by_cases hex : ∃ u ∈ dvr.metaData.DenomUnits, u.Denom = dvr.metaData.Display
      · exact Or.inr hex
      · left
        have : eDisp = 0 := hdisp.2 (fun u hu hd => hex ⟨u, hu, hd⟩)
        simp [this]
  exact Prod.ext h1 h2

theorem IsInt64_iff (x : Int) : IsInt64 x = true ↔ -(2 ^ 63) ≤ x ∧ x ≤ 2 ^ 63 - 1 := by
  simp [IsInt64, minInt64, maxInt64]

/-- Scaling down in `ComputeAmount`: the value handed to the `int64` conversion. -/
theorem scale_down_value (a : Int) (k : Nat) (ha : 0 ≤ a) (hk : k ≤ 18) :
    Int.tdiv (a * 10 ^ (Precision - k)) (10 ^ Precision) = a / 10 ^ k := by
  have hp : (0 : Int) < 10 ^ (18 - k) := by positivity
  have h18 : (10 : Int) ^ 18 = 10 ^ k * 10 ^ (18 - k) := by
    rw [← pow_add]
    congr 1
    omega
  simp only [Precision]
  rw [Int.tdiv_eq_ediv (mul_nonneg ha hp.le) (by positivity)]
  rw [h18, Int.mul_ediv_mul_of_pos_left _ _ hp]

theorem Int64_of_fits (x : Int) (h : IsInt64 x = true) : Int64 x = some x := by
  simp [Int64, h]

/-! ## C1: `ComputeAmount`, scale down -/

/-- C1 (amended): when the units give the coin denomination the exponent `eSrc` and the display
denomination the exponent `eDisp`, with `eDisp < eSrc` and `eSrc - eDisp ≤ 18`, then for every
amount `a ≥ 0` whose quotient by `10 ^ (eSrc - eDisp)` fits in a signed 64-bit integer,
`ComputeAmount` returns that quotient, truncated and never rounded. -/
theorem ComputeAmount_scale_down (ovf : Int → Int) (dvr : DefaultValueRenderer) (coin : Coin)
    (eSrc eDisp : Nat)
    (hsrc : hasExponent dvr.metaData.DenomUnits coin.Denom eSrc)
    (hdisp : hasExponent dvr.metaData.DenomUnits dvr.metaData.Display eDisp)
    (hlt : eDisp < eSrc) (h18 : eSrc - eDisp ≤ 18) (ha : 0 ≤ coin.Amount)
    (hfit : coin.Amount / 10 ^ (eSrc - eDisp) ≤ 2 ^ 63 - 1) :
    ComputeAmount ovf dvr coin = some (coin.Amount / 10 ^ (eSrc - eDisp)) := by
  unfold ComputeAmount
  rw [scanExponents_eq dvr coin eSrc eDisp hsrc hdisp]
  have hneg : ((eDisp : Int) - (eSrc : Int)) < 0 := by omega
  have hk : ((eDisp : Int) - (eSrc : Int)).natAbs = eSrc - eDisp := by omega
  simp only [if_pos hneg, hk, NewDecFromIntWithPrec]
  rw [if_pos (by simpa [Precision] using h18)]
  simp only [Option.bind, TruncateInt64]
  rw [scale_down_value _ _ ha h18]
  apply Int64_of_fits
  rw [IsInt64_iff]
  refine ⟨?_, hfit⟩
  have : (0 : Int) ≤ coin.Amount / 10 ^ (eSrc - eDisp) :=
    Int.ediv_nonneg ha (by positivity)
  omega

/-- C1, witness: 1_500_000 `uregen` (exponent 6) displayed in `regen` (exponent 0). -/
theorem ComputeAmount_scale_down_witness :
    ComputeAmount id ⟨regenMetadata⟩ ⟨"uregen", 1500000⟩ = some (1500000 / 10 ^ (6 - 0)) ∧
    ComputeAmount id ⟨regenMetadata⟩ ⟨"uregen", 1500000⟩ = some 1 :=
  ⟨ComputeAmount_scale_down id ⟨regenMetadata⟩ ⟨"uregen", 1500000⟩ 6 0
      (by decide) (by decide) (by decide) (by decide) (by decide) (by decide),
   by decide⟩

/-- C1, counterexample: the claim as stated, for every amount `a ≥ 0`, fails at the amount
`10 ^ 25` of `uregen` (exponent 6) displayed in `regen` (exponent 0): the quotient `10 ^ 19`
is beyond the `int64` that `ComputeAmount` returns, and there is no result. -/
theorem ComputeAmount_scale_down_unbounded :
    hasExponent regenMetadata.DenomUnits "uregen" 6 ∧
    hasExponent regenMetadata.DenomUnits regenMetadata.Display 0 ∧
    (0 : Int) ≤ 10 ^ 25 ∧
    IsInt64 ((10 : Int) ^ 25 / 10 ^ (6 - 0)) = false ∧
    ComputeAmount id ⟨regenMetadata⟩ ⟨"uregen", 10 ^ 25⟩ = none ∧
    ComputeAmount id ⟨regenMetadata⟩ ⟨"uregen", 10 ^ 25⟩ ≠ some (10 ^ 25 / 10 ^ (6 - 0)) := by
  refine ⟨by decide, by decide, by decide, by decide, by decide, by decide⟩

/-! ## C2: `ComputeAmount`, scale up -/

/-- C2: when the units give the coin denomination the exponent `eSrc` and the display
denomination the exponent `eDisp ≥ eSrc`, then for every amount `a` such that
`a * 10 ^ (eDisp - eSrc)` fits in a signed 64-bit integer, `ComputeAmount` returns exactly
`a * 10 ^ (eDisp - eSrc)`, and the amount itself when `eDisp = eSrc`. -/
theorem ComputeAmount_scale_up (ovf : Int → Int) (dvr : DefaultValueRenderer) (coin : Coin)
    (eSrc eDisp : Nat)
    (hsrc : hasExponent dvr.metaData.DenomUnits coin.Denom eSrc)
    (hdisp : hasExponent dvr.metaData.DenomUnits dvr.metaData.Display eDisp)
    (hle : eSrc ≤ eDisp)
    (hfit : IsInt64 (coin.Amount * 10 ^ (eDisp - eSrc)) = true) :
    ComputeAmount ovf dvr coin = some (coin.Amount * 10 ^ (eDisp - eSrc)) ∧
    (eDisp = eSrc → ComputeAmount ovf dvr coin = some coin.Amount) := by
  have main : ComputeAmount ovf dvr coin = some (coin.Amount * 10 ^ (eDisp - eSrc)) := by
    unfold ComputeAmount
    rw [scanExponents_eq dvr coin eSrc eDisp hsrc hdisp]
    have hneg : ¬ ((eDisp : Int) - (eSrc : Int)) < 0 := by omega
    have hk : ((eDisp : Int) - (eSrc : Int)).toNat = eDisp - eSrc := by omega
    simp only [if_neg hneg, hk]
    by_cases ha : coin.Amount = 0
    · simp [ha, Int64, IsInt64, minInt64, maxInt64]
    · -- a non-zero amount forces the power of ten into the `int64` range
      have hpow : IsInt64 ((10 : Int) ^ (eDisp - eSrc)) = true := by
        rw [IsInt64_iff] at hfit ⊢
        have hp : (0 : Int) < 10 ^ (eDisp - eSrc) := by positivity
        refine ⟨by omega, ?_⟩
        by_contra hbig
        have hbig : (2 : Int) ^ 63 ≤ 10 ^ (eDisp - eSrc) := by omega
        rcases lt_or_gt_of_ne ha with hlt | hgt
        · have h1 : coin.Amount ≤ -1 := by omega
          have : coin.Amount * 10 ^ (eDisp - eSrc) ≤ -1 * 10 ^ (eDisp - eSrc) :=
            mul_le_mul_of_nonneg_right h1 hp.le
          have hk19 : ¬ (eDisp - eSrc ≤ 18) := by
            intro hk18
            have : (10 : Int) ^ (eDisp - eSrc) ≤ 10 ^ 18 :=
              pow_le_pow_right₀ (by norm_num) hk18
            norm_num at this hbig
            omega
          have h19 : (10 : Int) ^ 19 ≤ 10 ^ (eDisp - eSrc) :=
            pow_le_pow_right₀ (by norm_num) (by omega)
          norm_num at h19
          omega
        · have h1 : (1 : Int) ≤ coin.Amount := by omega
          have : 1 * 10 ^ (eDisp - eSrc) ≤ coin.Amount * 10 ^ (eDisp - eSrc) :=
            mul_le_mul_of_nonneg_right h1 hp.le
          omega
      simp only [float64ToInt64, hpow, if_true]
      exact Int64_of_fits _ hfit
  refine ⟨main, ?_⟩
  intro heq
  rw [main, heq]
  simp

/-- C2, witness: 1 `regen` (exponent 0) displayed in `uregen` (exponent 6) is 1_000_000. -/
theorem ComputeAmount_scale_up_witness :
    (ComputeAmount id ⟨uregenMetadata⟩ ⟨"regen", 1⟩ = some (1 * 10 ^ (6 - 0)) ∧
      (6 = 0 → ComputeAmount id ⟨uregenMetadata⟩ ⟨"regen", 1⟩ = some 1)) ∧
    ComputeAmount id ⟨uregenMetadata⟩ ⟨"regen", 1⟩ = some 1000000 :=
  ⟨ComputeAmount_scale_up id ⟨uregenMetadata⟩ ⟨"regen", 1⟩ 0 6
      (by decide) (by decide) (by decide) (by decide),
   by decide⟩

/-! ## C3: `Format` of a coin -/

/-- C3 (amended): for every renderer and every coin for which `ComputeAmount` has a result `v`,
`Format` of the coin succeeds and returns the digit-grouped rendering of `v` immediately
followed by the display unit name of the metadata. -/
theorem Format_Coin (ovf : Int → Int) (dvr : DefaultValueRenderer) (coin : Coin) (v : Int)
    (h : ComputeAmount ovf dvr coin = some v) :
    Format ovf dvr (.Coin coin) = some (Sprintf v ++ dvr.metaData.Display, none) := by
  simp [Format, h]

/-- C3, witness: 2500 `mregen` and 1000000 `uregen`, displayed in `regen`. -/
theorem Format_Coin_witness :
    Format id ⟨regenMetadata⟩ (.Coin ⟨"mregen", 2500⟩)
      = some (Sprintf 2 ++ regenMetadata.Display, none) ∧
    Format id ⟨regenMetadata⟩ (.Coin ⟨"mregen", 2500⟩) = some ("2regen", none) ∧
    Format id ⟨regenMetadata⟩ (.Coin ⟨"uregen", 1000000⟩) = some ("1regen", none) :=
  ⟨Format_Coin id ⟨regenMetadata⟩ ⟨"mregen", 2500⟩ 2 (by decide), by decide, by decide⟩

/-- C3, counterexample: `Format` does not succeed for every coin. For the coin of `2 ^ 63`
`regen` displayed in `regen` the amount is unchanged by the conversion but is no `int64`;
`ComputeAmount` has no result and `Format` returns nothing. -/
theorem Format_Coin_no_result :
    ComputeAmount id ⟨regenMetadata⟩ ⟨"regen", 2 ^ 63⟩ = none ∧
    Format id ⟨regenMetadata⟩ (.Coin ⟨"regen", 2 ^ 63⟩) = none ∧
    ¬ ∃ str, Format id ⟨regenMetadata⟩ (.Coin ⟨"regen", 2 ^ 63⟩) = some (str, none) := by
  refine ⟨by decide, by decide, ?_⟩
  rintro ⟨str, h⟩
  have h0 : Format id ⟨regenMetadata⟩ (.Coin ⟨"regen", 2 ^ 63⟩) = none := by decide
  rw [h0] at h
  exact Option.noConfusion h

/-! ## C4: `Parse` of an amount-shaped string -/

theorem getD_boundary (pre suf : List Char) (x : Char) (k : Nat) :
    (pre ++ x :: suf).getD (pre.length + 1 + k) ' ' = suf.getD k ' ' := by
  rw [List.getD_eq_getElem?_getD, List.getD_eq_getElem?_getD]
  rw [List.getElem?_append_right (by omega)]
  have : pre.length + 1 + k - pre.length = k + 1 := by omega
  rw [this, List.getElem?_cons_succ]

theorem getD_boundary_zero (pre suf : List Char) (x : Char) :
    (pre ++ x :: suf).getD pre.length ' ' = x := by
  rw [List.getD_eq_getElem?_getD]
  rw [List.getElem?_append_right (by omega)]
  simp

theorem lastNonLetter_boundary (pre suf : List Char) (x : Char) (dflt : Int)
    (hx : IsLetter x = false) (hsuf : ∀ c ∈ suf, IsLetter c = true) :
    ∀ k, k ≤ suf.length →
      lastNonLetter (pre ++ x :: suf) dflt (pre.length + 1 + k) = (pre.length : Int) := by
  intro k
  induction k with
  | zero =>
    intro _
    simp only [Nat.add_zero, lastNonLetter, getD_boundary_zero, hx]
    simp
  | succ k ih =>
    intro hk
    have hmem : IsLetter (suf.getD k ' ') = true := by
      apply hsuf
      rw [List.getD_eq_getElem _ _ (by omega)]
      exact List.getElem_mem _
    rw [show pre.length + 1 + (k + 1) = (pre.length + 1 + k) + 1 by omega]
    simp only [lastNonLetter, getD_boundary, hmem, if_true]
    exact ih (by omega)

/-- The split that `coinFromString` makes of a string whose last non-letter byte is `x`,
followed by the non-empty run of letters `suf`. -/
theorem coinFromString_split (s : String) (pre suf : List Char) (x : Char)
    (hs : s.data = pre ++ x :: suf) (hx : IsLetter x = false)
    (hsuf : ∀ c ∈ suf, IsLetter c = true) (hne : suf ≠ []) :
    coinFromString s =
      match NewIntFromString ⟨pre ++ [x]⟩ with
      | none => .error (.New "unable convert amountStr to int64")
      | some amountInt =>
        match NewCoin ⟨suf⟩ amountInt with
        | none => .abort
        | some coin => .ok coin := by
  have hlen : s.data.length = pre.length + 1 + suf.length := by
    simp [hs]; omega
  have hpos : 0 < suf.length := List.length_pos.mpr hne
  have hidx : lastNonLetter s.data ((s.data.length : Int) - 1) s.data.length = (pre.length : Int) := by
    rw [hlen, hs]
    exact lastNonLetter_boundary pre suf x _ hx hsuf suf.length (le_refl _)
  unfold coinFromString
  simp only [hidx]
  have hneq : ¬ ((pre.length : Int) = (s.data.length : Int) - 1) := by
    rw [hlen]; push_cast; omega
  rw [if_neg hneq]
  have hnat : ((pre.length : Int) + 1).toNat = pre.length + 1 := by omega
  have hdrop : List.drop (pre.length + 1) s.data = suf := by
    rw [hs, show pre ++ x :: suf = (pre ++ [x]) ++ suf by simp]
    rw [List.drop_left' (by simp)]
  have htake : List.take (pre.length + 1) s.data = pre ++ [x] := by
    rw [hs, show pre ++ x :: suf = (pre ++ [x]) ++ suf by simp]
    rw [List.take_left' (by simp)]
  simp only [hnat, hdrop, htake]

theorem isDigit_not_letter (c : Char) (h : isDigit c = true) : IsLetter c = false := by
  simp only [isDigit, Bool.and_eq_true, decide_eq_true_eq] at h
  simp only [IsLetter, Bool.or_eq_false_iff, Bool.and_eq_false_iff, decide_eq_false_iff_not,
    beq_eq_false_iff_ne]
  omega

theorem matchTail_ne_nil : matchTail [] = false := by decide

theorem matchDigits_append (d w : List Char) (hd : ∀ c ∈ d, isDigit c = true)
    (hw : matchTail w = true) : matchDigits (d ++ w) = true := by
  induction d with
  | nil =>
    cases w with
    | nil => simp [matchTail_ne_nil] at hw
    | cons c t => simp [matchDigits, hw]
  | cons c t ih =>
    have hc : isDigit c = true := hd c (List.mem_cons_self _ _)
    have ht : matchDigits (t ++ w) = true := ih (fun c hc => hd c (List.mem_cons_of_mem _ hc))
    simp [matchDigits, hc, ht]

theorem matchAnywhere_digits_tail (d w : List Char) (hne : d ≠ [])
    (hd : ∀ c ∈ d, isDigit c = true) (hw : matchTail w = true) :
    matchAnywhere (d ++ w) = true := by
  cases d with
  | nil => exact absurd rfl hne
  | cons c t =>
    have hc : isDigit c = true := hd c (List.mem_cons_self _ _)
    have ht : matchDigits (t ++ w) = true :=
      matchDigits_append t w (fun c hc => hd c (List.mem_cons_of_mem _ hc)) hw
    simp [matchAnywhere, matchHere, hc, ht]

theorem isDigit_scan (c : Char) (h : isDigit c = true) :
    c ≠ '_' ∧ scanDigitVal c = digitVal c ∧ digitVal c < 10 := by
  refine ⟨?_, ?_, ?_⟩
  · rintro rfl
    exact absurd h (by decide)
  · simp only [isDigit, Bool.and_eq_true, decide_eq_true_eq] at h
    simp [scanDigitVal, digitVal, h.1, h.2]
  · simp only [isDigit, Bool.and_eq_true, decide_eq_true_eq] at h
    simp only [digitVal]
    omega

/-- The digit loop of the scanner in base 10 on a run of decimal digits. -/
theorem scanLoop_digits (l : List Char) :
    ∀ st : ScanState, (∀ c ∈ l, isDigit c = true) →
      scanLoop 10 st l =
        (⟨if l = [] then st.prev else '0', st.invalSep, st.count + l.length,
          l.foldl (fun v c => 10 * v + digitVal c) st.z⟩, []) := by
  induction l with
  | nil => intro st _; simp [scanLoop]
  | cons c t ih =>
    intro st h
    obtain ⟨h1, h2, h3⟩ := isDigit_scan c (h c (List.mem_cons_self _ _))
    have ht := ih ⟨'0', st.invalSep, st.count + 1, st.z * 10 + scanDigitVal c⟩
      (fun x hx => h x (List.mem_cons_of_mem _ hx))
    have hge : ¬ scanDigitVal c ≥ 10 := by rw [h2]; omega
    simp only [scanLoop, h1, if_false, hge, ht, List.foldl_cons, List.length_cons]
    by_cases hnil : t = []
    · subst hnil
      simp [h2, Nat.mul_comm]
    · simp [hnil, h2, Nat.mul_comm, Nat.add_assoc, Nat.add_comm 1]

/-- The unsigned scanner on a run of decimal digits without a leading zero. -/
theorem natScan_decimal (c : Char) (t : List Char) (hc : c ≠ '0')
    (hd : ∀ x ∈ c :: t, isDigit x = true) :
    natScan (c :: t) = (some (decVal (c :: t)), []) := by
  unfold natScan
  split
  · rename_i h
    exact absurd (List.cons.inj h).1 hc
  · rename_i h
    exact absurd (List.cons.inj h).1 hc
  · simp [scanLoop_digits (c :: t) ⟨'.', false, 0, 0⟩ hd, scanFinish, decVal]

/-- `NewIntFromString` on a run of decimal digits without a leading zero, of at most 256
bits: the decimal value. -/
theorem NewIntFromString_decimal (d : List Char) (hne : d ≠ [])
    (hd : ∀ c ∈ d, isDigit c = true) (hlead : d = ['0'] ∨ d.head? ≠ some '0')
    (hrange : decVal d < 2 ^ 256) :
    NewIntFromString ⟨d⟩ = some (decVal d : Int) := by
  rcases hlead with rfl | hlead
  · decide
  · cases d with
    | nil => exact absurd rfl hne
    | cons c t =>
      have hc0 : c ≠ '0' := by
        intro h
        apply hlead
        simp [h]
      have hcd : isDigit c = true := hd c (List.mem_cons_self _ _)
      have hminus : c ≠ '-' := by rintro rfl; exact absurd hcd (by decide)
      have hplus : c ≠ '+' := by rintro rfl; exact absurd hcd (by decide)
      have hS : SetString ⟨c :: t⟩ = some (decVal (c :: t) : Int) := by
        unfold SetString
        split
        · rename_i h
          exact absurd h (List.cons_ne_nil c t)
        · rename_i h
          exact absurd (List.cons.inj h).1 hminus
        · rename_i h
          exact absurd (List.cons.inj h).1 hplus
        · rw [natScan_decimal c t hc0 hd]
      unfold NewIntFromString
      rw [hS]
      simp only [Int.natAbs_ofNat]
      rw [if_pos hrange]

theorem NewCoin_family (w : String) (a : Int)
    (hw : w = "regen" ∨ w = "mregen" ∨ w = "uregen") (ha : 0 ≤ a) :
    NewCoin w a = some ⟨w, a⟩ := by
  have hv : ValidateDenom w = true := by
    rcases hw with rfl | rfl | rfl <;> decide
  unfold NewCoin
  rw [if_pos ⟨hv, ha⟩]

/-- `Parse` on digits without a leading zero followed by a denomination of the `regen` family. -/
theorem Parse_digits_denom (s : String) (d : List Char) (w : String)
    (hs : (removeCommas s).data = d ++ w.data) (hne : d ≠ [])
    (hd : ∀ c ∈ d, isDigit c = true) (hlead : d = ['0'] ∨ d.head? ≠ some '0')
    (hrange : decVal d < 2 ^ 256)
    (hw : w = "regen" ∨ w = "mregen" ∨ w = "uregen") :
    Parse s = .ok (.Coin ⟨w, (decVal d : Int)⟩) := by
  have hs0 : s ≠ "" := by
    intro h
    rw [h] at hs
    have : d ++ w.data = [] := hs.symm
    exact hne (List.append_eq_nil.mp this).1
  have hwl : ∀ c ∈ w.data, IsLetter c = true := by
    rcases hw with rfl | rfl | rfl <;> decide
  have hwt : matchTail w.data = true := by
    rcases hw with rfl | rfl | rfl <;> decide
  have hwne : w.data ≠ [] := by
    rcases hw with rfl | rfl | rfl <;> decide
  have hmatch : MatchString (removeCommas s) = true := by
    unfold MatchString
    rw [hs]
    exact matchAnywhere_digits_tail d w.data hne hd hwt
  have hd' : d = d.dropLast ++ [d.getLast hne] := (List.dropLast_append_getLast hne).symm
  have hx : IsLetter (d.getLast hne) = false :=
    isDigit_not_letter _ (hd _ (List.getLast_mem hne))
  have hsplit := coinFromString_split (removeCommas s) d.dropLast w.data (d.getLast hne)
    (by rw [hs]; conv_lhs => rw [hd']
        simp) hx hwl hwne
  rw [← hd'] at hsplit
  have hint := NewIntFromString_decimal d hne hd hlead hrange
  have hcoin : NewCoin ⟨w.data⟩ (decVal d : Int) = some ⟨w, (decVal d : Int)⟩ :=
    NewCoin_family w _ hw (Int.ofNat_nonneg _)
  unfold Parse
  rw [if_neg hs0]
  simp only [hmatch, if_true, hsplit, hint, hcoin]

/-- C4 (amended): when the input without its commas is a non-empty run of decimal digits `d`
without a leading zero (`d` is `0` itself or does not begin with `0`), of a value below
`2 ^ 256`, followed by one of the denominations `regen`, `mregen`, `uregen`, `Parse` succeeds
and returns the coin of that denomination whose amount is the decimal value of `d`. -/
theorem Parse_amount (s : String) (d : List Char) (w : String)
    (hs : (removeCommas s).data = d ++ w.data) (hne : d ≠ [])
    (hd : ∀ c ∈ d, isDigit c = true) (hlead : d = ['0'] ∨ d.head? ≠ some '0')
    (hrange : decVal d < 2 ^ 256)
    (hw : w = "regen" ∨ w = "mregen" ∨ w = "uregen") :
    Parse s = .ok (.Coin ⟨w, (decVal d : Int)⟩) :=
  Parse_digits_denom s d w hs hne hd hlead hrange hw

/-- C4, witness: `1000000uregen`, also written with grouping commas. -/
theorem Parse_amount_witness :
    Parse "1,000,000uregen" = .ok (.Coin ⟨"uregen", (decVal "1000000".data : Int)⟩) ∧
    Parse "1,000,000uregen" = .ok (.Coin ⟨"uregen", 1000000⟩) ∧
    Parse "1000000uregen" = .ok (.Coin ⟨"uregen", 1000000⟩) :=
  ⟨Parse_amount "1,000,000uregen" "1000000".data "uregen" (by decide) (by decide) (by decide)
      (by decide) (by decide) (by decide),
   by decide, by decide⟩

/-- C4, counterexample: `010regen` is the run of decimal digits `010`, of decimal value 10,
followed by `regen`, yet `Parse` returns 8 `regen`: the leading `0` makes the helper read the
digits in base 8. For the same reason `08regen` is refused with the invalid-amount error. -/
theorem Parse_amount_leading_zero :
    (removeCommas "010regen").data = "010".data ++ "regen".data ∧
    (∀ c ∈ "010".data, isDigit c = true) ∧ decVal "010".data = 10 ∧
    Parse "010regen" = .ok (.Coin ⟨"regen", 8⟩) ∧
    Parse "010regen" ≠ .ok (.Coin ⟨"regen", (decVal "010".data : Int)⟩) ∧
    (removeCommas "08regen").data = "08".data ++ "regen".data ∧
    (∀ c ∈ "08".data, isDigit c = true) ∧
    Parse "08regen" = .error (.New "unable convert amountStr to int64") := by
  refine ⟨by decide, by decide, by decide, by decide, by decide, by decide, by decide,
    by decide⟩

/-! ## C5: `Parse` of a plain number -/

theorem digitVal_le (c : Char) (h : isDigit c = true) : digitVal c ≤ 9 := by
  simp only [isDigit, Bool.and_eq_true, decide_eq_true_eq] at h
  simp only [digitVal]
  omega

theorem foldl_dec_ge (l : List Char) :
    ∀ n : Nat, n ≤ l.foldl (fun v c => 10 * v + digitVal c) n := by
  induction l with
  | nil => intro n; simp
  | cons c cs ih =>
    intro n
    simp only [List.foldl_cons]
    exact le_trans (by omega) (ih (10 * n + digitVal c))

/-- The loop of `ParseUint` reads a run of digits whose value fits in `uint64`. -/
theorem parseUintLoop_ok (s0 : String) (l : List Char) :
    ∀ n : Nat, (∀ c ∈ l, isDigit c = true) →
      l.foldl (fun v c => 10 * v + digitVal c) n ≤ maxUint64 →
      parseUintLoop s0 n l = (l.foldl (fun v c => 10 * v + digitVal c) n, none) := by
  induction l with
  | nil => intro n _ _; simp [parseUintLoop]
  | cons c cs ih =>
    intro n hd hfit
    have hc : isDigit c = true := hd c (List.mem_cons_self _ _)
    have hd9 := digitVal_le c hc
    simp only [List.foldl_cons] at hfit ⊢
    have hstep : 10 * n + digitVal c ≤ maxUint64 := le_trans (foldl_dec_ge cs _) hfit
    have hmax : maxUint64 = 18446744073709551615 := by decide
    rw [hmax] at hstep
    have h1 : ¬ (n ≥ maxUint64 / 10 + 1) := by rw [hmax]; omega
    have h2 : (n * 10 + digitVal c) % 2 ^ 64 = 10 * n + digitVal c := by
      rw [Nat.mod_eq_of_lt (by norm_num; omega)]; omega
    have h3 : ¬ (10 * n + digitVal c < n * 10 ∨ 10 * n + digitVal c > maxUint64) := by
      rw [hmax]; omega
    simp only [parseUintLoop, hc, if_true, h1, if_false, h2, h3]
    exact ih _ (fun c hc => hd c (List.mem_cons_of_mem _ hc)) hfit

/-- An error of the loop of `ParseUint` is a `NumError` of `ParseUint` on the whole input. -/
theorem parseUintLoop_err (s0 : String) (l : List Char) :
    ∀ n : Nat, (parseUintLoop s0 n l).2 = none ∨
      ∃ k, (parseUintLoop s0 n l).2 = some (.NumError "ParseUint" s0 k) := by
  induction l with
  | nil => intro n; simp [parseUintLoop]
  | cons c cs ih =>
    intro n
    simp only [parseUintLoop]
    split
    · split
      · exact Or.inr ⟨_, rfl⟩
      · split
        · exact Or.inr ⟨_, rfl⟩
        · exact ih _
    · exact Or.inr ⟨_, rfl⟩

/-- When the loop of `ParseUint` returns no error, it has read a run of digits whose value
fits in `uint64`. -/
theorem parseUintLoop_sound (s0 : String) (l : List Char) :
    ∀ n : Nat, (parseUintLoop s0 n l).2 = none →
      (∀ c ∈ l, isDigit c = true) ∧
        l.foldl (fun v c => 10 * v + digitVal c) n ≤ maxUint64 ∨ maxUint64 < n := by
  induction l with
  | nil =>
    intro n _
    by_cases h : n ≤ maxUint64
    · left; simpa using h
    · right; omega
  | cons c cs ih =>
    intro n h
    have hmax : maxUint64 = 18446744073709551615 := by decide
    simp only [parseUintLoop] at h
    split at h
    · rename_i hc
      have hd9 := digitVal_le c hc
      split at h
      · simp at h
      · rename_i h1
        split at h
        · simp at h
        · rename_i h3
          rw [hmax] at h1 h3
          have hn : (n * 10 + digitVal c) % 2 ^ 64 = 10 * n + digitVal c := by
            norm_num at h3 ⊢
            omega
          rw [hn] at h
          rcases ih _ h with ⟨hall, hfit⟩ | hbig
          · left
            refine ⟨?_, by simpa using hfit⟩
            intro x hx
            rcases List.mem_cons.mp hx with rfl | hx
            · exact hc
            · exact hall x hx
          · exfalso
            rw [hn] at h3
            rw [hmax] at hbig
            omega
    · simp at h

theorem String_data_ne_nil (s : String) (h : s ≠ "") : s.data ≠ [] := by
  intro h0
  apply h
  cases s
  simp_all

theorem ParseUint_literal (s : String) (h : uintLiteral s.data) :
    ParseUint s = (decVal s.data, none) := by
  obtain ⟨hne, hd, hfit⟩ := h
  have hs : s ≠ "" := by
    intro h0
    rw [h0] at hne
    exact hne rfl
  unfold ParseUint
  rw [if_neg hs]
  exact parseUintLoop_ok s s.data 0 hd (by simpa [decVal, maxUint64] using hfit)

theorem ParseUint_not_literal (s : String) (h : ¬ uintLiteral s.data) :
    ∃ k, (ParseUint s).2 = some (.NumError "ParseUint" s k) := by
  unfold ParseUint
  by_cases hs : s = ""
  · rw [if_pos hs]
    exact ⟨_, rfl⟩
  · rw [if_neg hs]
    rcases parseUintLoop_err s s.data 0 with hnone | herr
    · exfalso
      apply h
      rcases parseUintLoop_sound s s.data 0 hnone with ⟨hall, hfit⟩ | hbig
      · exact ⟨String_data_ne_nil s hs, hall, by simpa [decVal, maxUint64] using hfit⟩
      · simp at hbig
    · exact herr

/-- `Parse` reads a comma-grouped literal of an unsigned 64-bit integer. -/
theorem Parse_of_uintLiteral (s : String) (hs : s ≠ "")
    (hno : MatchString (removeCommas s) = false)
    (hlit : uintLiteral (removeCommas s).data) :
    Parse s = .ok (.Uint (decVal (removeCommas s).data)) := by
  unfold Parse
  rw [if_neg hs]
  simp only [hno]
  rw [ParseUint_literal _ hlit]
  simp [NewUint]

/-- `Parse` passes on the error of `ParseUint` for anything else without the amount pattern. -/
theorem Parse_of_not_uintLiteral (s : String) (hs : s ≠ "")
    (hno : MatchString (removeCommas s) = false)
    (hlit : ¬ uintLiteral (removeCommas s).data) :
    ∃ k, Parse s = .error (.NumError "ParseUint" (removeCommas s) k) := by
  unfold Parse
  rw [if_neg hs]
  simp only [hno]
  obtain ⟨k, hk⟩ := ParseUint_not_literal _ hlit
  rcases hP : ParseUint (removeCommas s) with ⟨v, e⟩
  rw [hP] at hk
  simp only at hk
  subst hk
  exact ⟨k, by simp⟩

/-- C5: for a non-empty input whose comma-free form does not contain the amount pattern, `Parse`
succeeds exactly when the comma-free form is a decimal literal of an unsigned 64-bit integer,
and then returns that unsigned integer; otherwise it returns the `NumError` of
`strconv.ParseUint`. -/
theorem Parse_plain_number (s : String) (hs : s ≠ "")
    (hno : MatchString (removeCommas s) = false) :
    (uintLiteral (removeCommas s).data →
      Parse s = .ok (.Uint (decVal (removeCommas s).data))) ∧
    (¬ uintLiteral (removeCommas s).data →
      ∃ k, Parse s = .error (.NumError "ParseUint" (removeCommas s) k)) :=
  ⟨Parse_of_uintLiteral s hs hno, Parse_of_not_uintLiteral s hs hno⟩

/-- C5, witness: a grouped number is parsed; a stray letter and a value of `2 ^ 64` are numeric
parse errors. -/
theorem Parse_plain_number_witness :
    Parse "1,234,567" = .ok (.Uint (decVal (removeCommas "1,234,567").data)) ∧
    Parse "1,234,567" = .ok (.Uint 1234567) ∧
    (∃ k, Parse "12a" = .error (.NumError "ParseUint" (removeCommas "12a") k)) ∧
    (∃ k, Parse "18446744073709551616"
      = .error (.NumError "ParseUint" (removeCommas "18446744073709551616") k)) :=
  ⟨(Parse_plain_number "1,234,567" (by decide) (by decide)).1 (by decide),
   by decide,
   (Parse_plain_number "12a" (by decide) (by decide)).2 (by decide),
   (Parse_plain_number "18446744073709551616" (by decide) (by decide)).2 (by decide)⟩

/-! ## C6: `Format` of a plain integer -/

theorem chunks3_ne_nil (l : List Char) : chunks3 l ≠ [] := by
  unfold chunks3
  split <;> simp

theorem joinGroups_snoc (gs : List (List Char)) (hne : gs ≠ []) (g : List Char) :
    joinGroups (gs ++ [g]) = joinGroups gs ++ ',' :: g := by
  induction gs with
  | nil => exact absurd rfl hne
  | cons a t ih =>
    cases t with
    | nil => simp [joinGroups]
    | cons b t2 =>
      have h := ih (by simp)
      show a ++ ',' :: joinGroups (b :: t2 ++ [g]) = (a ++ ',' :: joinGroups (b :: t2)) ++ ',' :: g
      rw [h]
      simp

theorem groupRev_eq (l : List Char) :
    (groupRev l).reverse = joinGroups (((chunks3 l).map List.reverse).reverse) := by
  induction l using groupRev.induct with
  | case1 a b c d rest ih =>
    have hne : (List.map List.reverse (chunks3 (d :: rest))).reverse ≠ [] := by
      simp [chunks3_ne_nil]
    simp only [groupRev, chunks3, List.map_cons, List.reverse_cons, List.append_assoc]
    rw [joinGroups_snoc _ hne]
    simp only [List.reverse_cons] at ih
    rw [← ih]
    simp
  | case2 l h =>
    have h1 : groupRev l = l := by
      unfold groupRev
      split
      · exact absurd rfl (h _ _ _ _ _)
      · rfl
    have h2 : chunks3 l = [l] := by
      unfold chunks3
      split
      · exact absurd rfl (h _ _ _ _ _)
      · rfl
    simp [h1, h2, joinGroups]

/-- The English printer produces the grouping that the spec words describe. -/
theorem Sprintf_eq_groupedDecimal (n : Int) : Sprintf n = groupedDecimal n := by
  unfold Sprintf groupedDecimal groupNat groupsOfThree
  rw [groupRev_eq]
  split <;> simp

theorem String_length_eq_zero (s : String) (h : s.length = 0) : s = "" := by
  cases s with
  | mk d =>
    have : d = [] := List.length_eq_zero.mp h
    subst this
    rfl

/-- C6: for every integer `n` in the signed 64-bit range (held by a `types.Int` whose string
form `s` is not empty), `Format` succeeds and returns the decimal digits of `n` split into
groups of three counted from the right and joined by `,`, with the sign in front. -/
theorem Format_Int (ovf : Int → Int) (dvr : DefaultValueRenderer) (s : String) (n : Int)
    (hs : s ≠ "") (hn : IsInt64 n = true) :
    Format ovf dvr (.Int s n) = some (groupedDecimal n, none) := by
  have hlen : ¬ s.length = 0 := fun h => hs (String_length_eq_zero s h)
  simp [Format, hlen, Int64, hn, Sprintf_eq_groupedDecimal]

/-- C6, witness: 1234567, 999, 0 and a negative number. -/
theorem Format_Int_witness :
    Format id ⟨regenMetadata⟩ (.Int "1234567" 1234567) = some (groupedDecimal 1234567, none) ∧
    Format id ⟨regenMetadata⟩ (.Int "1234567" 1234567) = some ("1,234,567", none) ∧
    Format id ⟨regenMetadata⟩ (.Int "999" 999) = some ("999", none) ∧
    Format id ⟨regenMetadata⟩ (.Int "0" 0) = some ("0", none) ∧
    Format id ⟨regenMetadata⟩ (.Int "-1234567" (-1234567)) = some ("-1,234,567", none) :=
  ⟨Format_Int id ⟨regenMetadata⟩ "1234567" 1234567 (by decide) (by decide),
   by decide, by decide, by decide, by decide⟩

/-! ## C7: `Format` of a decimal with exactly one `.` -/

/-- A failing loop of `ParseUint` returns `0` with a syntax error or `maxUint64` with a range
error. -/
theorem parseUintLoop_err_value (s0 : String) (l : List Char) :
    ∀ n : Nat, (parseUintLoop s0 n l).2 = none ∨
      parseUintLoop s0 n l = (0, some (.NumError "ParseUint" s0 .ErrSyntax)) ∨
      parseUintLoop s0 n l = (maxUint64, some (.NumError "ParseUint" s0 .ErrRange)) := by
  induction l with
  | nil => intro n; simp [parseUintLoop]
  | cons c cs ih =>
    intro n
    simp only [parseUintLoop]
    split
    · split
      · exact Or.inr (Or.inr rfl)
      · split
        · exact Or.inr (Or.inr rfl)
        · exact ih _
    · exact Or.inr (Or.inl rfl)

theorem ParseUint_cases (s : String) :
    (uintLiteral s.data ∧ ParseUint s = (decVal s.data, none)) ∨
    (¬ uintLiteral s.data ∧
      (ParseUint s = (0, some (.NumError "ParseUint" s .ErrSyntax)) ∨
       ParseUint s = (maxUint64, some (.NumError "ParseUint" s .ErrRange)))) := by
  by_cases hlit : uintLiteral s.data
  · exact Or.inl ⟨hlit, ParseUint_literal s hlit⟩
  · right
    refine ⟨hlit, ?_⟩
    obtain ⟨k, hk⟩ := ParseUint_not_literal s hlit
    unfold ParseUint at hk ⊢
    by_cases hs : s = ""
    · rw [if_pos hs]
      exact Or.inl rfl
    · rw [if_neg hs] at hk ⊢
      rcases parseUintLoop_err_value s s.data 0 with h | h | h
      · rw [h] at hk
        exact Option.noConfusion hk
      · exact Or.inl h
      · exact Or.inr h

theorem parseIntUnsigned_of_ok (s0 : String) (neg : Bool) (s : String) (un : Nat)
    (h : ParseUint s = (un, none)) :
    parseIntUnsigned s0 neg s =
      if neg = false ∧ un ≥ 2 ^ 63 then (maxInt64, some (.NumError "ParseInt" s0 .ErrRange))
      else if neg = true ∧ un > 2 ^ 63 then (minInt64, some (.NumError "ParseInt" s0 .ErrRange))
      else if neg = true then (-(un : Int), none) else ((un : Int), none) := by
  unfold parseIntUnsigned
  rw [h]

theorem parseIntUnsigned_of_range (s0 : String) (neg : Bool) (s : String)
    (h : ParseUint s = (maxUint64, some (.NumError "ParseUint" s .ErrRange))) :
    ∃ v e, parseIntUnsigned s0 neg s = (v, some e) := by
  unfold parseIntUnsigned
  rw [h]
  have hmax : maxUint64 = 18446744073709551615 := by decide
  cases neg
  · refine ⟨maxInt64, .NumError "ParseInt" s0 .ErrRange, ?_⟩
    simp only []
    rw [if_pos ⟨by trivial, by rw [hmax]; norm_num⟩]
  · refine ⟨minInt64, .NumError "ParseInt" s0 .ErrRange, ?_⟩
    simp only []
    rw [if_neg (by simp), if_pos ⟨by trivial, by rw [hmax]; norm_num⟩]

theorem parseIntUnsigned_of_syntax (s0 : String) (neg : Bool) (s : String)
    (h : ParseUint s = (0, some (.NumError "ParseUint" s .ErrSyntax))) :
    ∃ v e, parseIntUnsigned s0 neg s = (v, some e) := by
  unfold parseIntUnsigned
  rw [h]
  exact ⟨_, _, rfl⟩

/-- The value that a sign and a run of digits denote. -/
theorem signed_fits_uint (neg : Bool) (d : List Char)
    (hlo : -(2 ^ 63) ≤ (if neg = true then -(decVal d : Int) else (decVal d : Int)))
    (hhi : (if neg = true then -(decVal d : Int) else (decVal d : Int)) ≤ 2 ^ 63 - 1) :
    decVal d ≤ 2 ^ 64 - 1 := by
  cases neg
  · simp only [Bool.false_eq_true, if_false] at hlo hhi
    omega
  · simp only [if_true] at hlo hhi
    omega

/-- The unsigned part of `ParseInt` on the digits `d` with sign `neg`. -/
theorem parseIntUnsigned_spec (s0 : String) (neg : Bool) (d : List Char) :
    (d ≠ [] → (∀ c ∈ d, isDigit c = true) →
        -(2 ^ 63) ≤ (if neg = true then -(decVal d : Int) else (decVal d : Int)) →
        (if neg = true then -(decVal d : Int) else (decVal d : Int)) ≤ 2 ^ 63 - 1 →
        parseIntUnsigned s0 neg ⟨d⟩
          = ((if neg = true then -(decVal d : Int) else (decVal d : Int)), none)) ∧
    (¬ (d ≠ [] ∧ (∀ c ∈ d, isDigit c = true) ∧
          -(2 ^ 63) ≤ (if neg = true then -(decVal d : Int) else (decVal d : Int)) ∧
          (if neg = true then -(decVal d : Int) else (decVal d : Int)) ≤ 2 ^ 63 - 1) →
        ∃ v e, parseIntUnsigned s0 neg ⟨d⟩ = (v, some e)) := by
  rcases ParseUint_cases ⟨d⟩ with ⟨hlit, hP⟩ | ⟨hlit, hP | hP⟩
  · -- the digits are read
    simp only at hP hlit
    have hres := parseIntUnsigned_of_ok s0 neg ⟨d⟩ (decVal d) hP
    obtain ⟨hne, hd, _⟩ := hlit
    constructor
    · intro _ _ hlo hhi
      rw [hres]
      cases neg
      · simp only [Bool.false_eq_true, if_false] at hlo hhi ⊢
        rw [if_neg (by rintro ⟨_, h⟩; omega), if_neg (by simp)]
      · simp only [if_true] at hlo hhi ⊢
        rw [if_neg (by simp), if_neg (by rintro ⟨_, h⟩; omega)]
    · intro hnot
      rw [hres]
      cases neg
      · simp only [Bool.false_eq_true, if_false] at hnot
        have h1 : (decVal d) ≥ 2 ^ 63 := by
          by_contra h
          exact hnot ⟨hne, hd, by omega, by omega⟩
        rw [if_pos ⟨rfl, h1⟩]
        exact ⟨_, _, rfl⟩
      · simp only [if_true] at hnot
        have h1 : (decVal d) > 2 ^ 63 := by
          by_contra h
          exact hnot ⟨hne, hd, by omega, by omega⟩
        rw [if_neg (by simp), if_pos ⟨rfl, h1⟩]
        exact ⟨_, _, rfl⟩
  · -- syntax error
    simp only at hP hlit
    constructor
    · intro hne hd hlo hhi
      exact absurd ⟨hne, hd, signed_fits_uint neg d hlo hhi⟩ hlit
    · intro _
      exact parseIntUnsigned_of_syntax s0 neg ⟨d⟩ hP
  · -- range error
    simp only at hP hlit
    constructor
    · intro hne hd hlo hhi
      exact absurd ⟨hne, hd, signed_fits_uint neg d hlo hhi⟩ hlit
    · intro _
      exact parseIntUnsigned_of_range s0 neg ⟨d⟩ hP

/-- The reading of a sign `neg` and digits `d` as a signed 64-bit literal. -/
theorem ParseInt_of_parts (s0 : String) (neg : Bool) (d : List Char)
    (hP : ParseInt s0 = parseIntUnsigned s0 neg ⟨d⟩)
    (hL : intLiteralValue s0.data =
      if d ≠ [] ∧ (∀ c ∈ d, isDigit c = true) then
        if -(2 ^ 63) ≤ (if neg = true then -(decVal d : Int) else (decVal d : Int)) ∧
            (if neg = true then -(decVal d : Int) else (decVal d : Int)) ≤ 2 ^ 63 - 1
        then some (if neg = true then -(decVal d : Int) else (decVal d : Int)) else none
      else none) :
    (∀ v, intLiteralValue s0.data = some v → ParseInt s0 = (v, none)) ∧
    (intLiteralValue s0.data = none → ∃ v e, ParseInt s0 = (v, some e)) := by
  obtain ⟨hok, herr⟩ := parseIntUnsigned_spec s0 neg d
  rw [hL, hP]
  by_cases h1 : d ≠ [] ∧ (∀ c ∈ d, isDigit c = true)
  · rw [if_pos h1]
    by_cases h2 : -(2 ^ 63) ≤ (if neg = true then -(decVal d : Int) else (decVal d : Int)) ∧
        (if neg = true then -(decVal d : Int) else (decVal d : Int)) ≤ 2 ^ 63 - 1
    · rw [if_pos h2]
      constructor
      · intro v hv
        have hv' : (if neg = true then -(decVal d : Int) else (decVal d : Int)) = v :=
          Option.some.inj hv
        rw [← hv']
        exact hok h1.1 h1.2 h2.1 h2.2
      · intro h
        exact Option.noConfusion h
    · rw [if_neg h2]
      constructor
      · intro v hv
        exact Option.noConfusion hv
      · intro _
        exact herr (fun h => h2 ⟨h.2.2.1, h.2.2.2⟩)
  · rw [if_neg h1]
    constructor
    · intro v hv
      exact Option.noConfusion hv
    · intro _
      exact herr (fun h => h1 ⟨h.1, h.2.1⟩)

/-- `strconv.ParseInt` accepts exactly the signed 64-bit decimal literals and returns their
value. -/
theorem ParseInt_spec (s0 : String) :
    (∀ v, intLiteralValue s0.data = some v → ParseInt s0 = (v, none)) ∧
    (intLiteralValue s0.data = none → ∃ v e, ParseInt s0 = (v, some e)) := by
  rcases s0 with ⟨l⟩
  cases l with
  | nil =>
    constructor
    · intro v hv
      have h0 : intLiteralValue [] = none := by decide
      rw [h0] at hv
      exact Option.noConfusion hv
    · intro _
      exact ⟨_, _, rfl⟩
  | cons c t =>
    have hs0 : (⟨c :: t⟩ : String) ≠ "" := by
      intro h
      exact List.cons_ne_nil c t (congrArg String.data h)
    by_cases hplus : c = '+'
    · subst hplus
      apply ParseInt_of_parts _ false t
      · unfold ParseInt
        rw [if_neg hs0]
        rfl
      · simp [intLiteralValue]
    · by_cases hminus : c = '-'
      · subst hminus
        apply ParseInt_of_parts _ true t
        · unfold ParseInt
          rw [if_neg hs0]
          rfl
        · simp [intLiteralValue]
      · apply ParseInt_of_parts _ false (c :: t)
        · unfold ParseInt
          rw [if_neg hs0]
          split
          · rename_i h; exact absurd (List.cons.inj h).1 hplus
          · rename_i h; exact absurd (List.cons.inj h).1 hminus
          · rfl
        · simp [intLiteralValue, hplus, hminus]

theorem splitChars_no_sep (sep : Char) (l : List Char) :
    ∀ cur : List Char, sep ∉ l → splitChars sep cur l = [cur.reverse ++ l] := by
  induction l with
  | nil => intro cur _; simp [splitChars]
  | cons c cs ih =>
    intro cur h
    have hc : ¬ c = sep := fun hc => h (hc ▸ List.mem_cons_self _ _)
    have hcs : sep ∉ cs := fun hm => h (List.mem_cons_of_mem _ hm)
    simp [splitChars, hc, ih _ hcs]

theorem splitChars_first (sep : Char) (pre rest : List Char) :
    ∀ cur : List Char, sep ∉ pre →
      splitChars sep cur (pre ++ sep :: rest) = (cur.reverse ++ pre) :: splitChars sep [] rest := by
  induction pre with
  | nil => intro cur _; simp [splitChars]
  | cons c cs ih =>
    intro cur h
    have hc : ¬ c = sep := fun hc => h (hc ▸ List.mem_cons_self _ _)
    have hcs : sep ∉ cs := fun hm => h (List.mem_cons_of_mem _ hm)
    simp [splitChars, hc, ih _ hcs]

/-- A string with exactly one `.` splits into the two segments around it. -/
theorem Split_two (s : String) (I F : List Char) (hs : s.data = I ++ '.' :: F)
    (hI : '.' ∉ I) (hF : '.' ∉ F) : Split s = [⟨I⟩, ⟨F⟩] := by
  unfold Split
  rw [hs, splitChars_first '.' I F [] hI, splitChars_no_sep '.' F [] hF]
  simp

/-- C7: for a decimal whose string form is `I.F` with exactly one `.`, `Format` returns the
grouped rendering of the integer that `I` denotes, followed by `.` and by `F` verbatim, when
`I` is a valid signed 64-bit decimal integer literal, and fails with the error "unable to
convert string to int64" when `I` is no such literal. -/
theorem Format_Dec (ovf : Int → Int) (dvr : DefaultValueRenderer) (s : String)
    (I F : List Char) (hs : s.data = I ++ '.' :: F) (hI : '.' ∉ I) (hF : '.' ∉ F) :
    (∀ v, intLiteralValue I = some v →
      Format ovf dvr (.Dec s) = some (groupedDecimal v ++ "." ++ ⟨F⟩, none)) ∧
    (intLiteralValue I = none →
      Format ovf dvr (.Dec s)
        = some ("", some (.New "unable to convert string to int64"))) := by
  have hlen : ¬ s.length = 0 := by
    show ¬ s.data.length = 0
    rw [hs]
    simp
  obtain ⟨hok, herr⟩ := ParseInt_spec ⟨I⟩
  constructor
  · intro v hv
    have hP := hok v hv
    simp only [Format, hlen, if_false, Split_two s I F hs hI hF, hP,
      Sprintf_eq_groupedDecimal]
  · intro hv
    obtain ⟨v, e, hP⟩ := herr hv
    simp only [Format, hlen, if_false, Split_two s I F hs hI hF, hP]

/-- C7, witness: `1234567.89`, an integer segment that is too large, and one with a letter. -/
theorem Format_Dec_witness :
    Format id ⟨regenMetadata⟩ (.Dec "1234567.89")
      = some (groupedDecimal 1234567 ++ "." ++ ⟨"89".data⟩, none) ∧
    Format id ⟨regenMetadata⟩ (.Dec "1234567.89") = some ("1,234,567.89", none) ∧
    Format id ⟨regenMetadata⟩ (.Dec "9223372036854775808.5")
      = some ("", some (.New "unable to convert string to int64")) ∧
    Format id ⟨regenMetadata⟩ (.Dec "12a.5")
      = some ("", some (.New "unable to convert string to int64")) :=
  ⟨(Format_Dec id ⟨regenMetadata⟩ "1234567.89" "1234567".data "89".data
      (by decide) (by decide) (by decide)).1 1234567 (by decide),
   by decide,
   (Format_Dec id ⟨regenMetadata⟩ "9223372036854775808.5" "9223372036854775808".data "5".data
      (by decide) (by decide) (by decide)).2 (by decide),
   (Format_Dec id ⟨regenMetadata⟩ "12a.5" "12a".data "5".data
      (by decide) (by decide) (by decide)).2 (by decide)⟩

/-! ## C8: integer round trip -/

theorem digitChar_isDigit (d : Nat) (h : d < 10) :
    isDigit (Nat.digitChar d) = true ∧ digitVal (Nat.digitChar d) = d := by
  interval_cases d <;> decide

theorem toDigitsCore_digits (fuel : Nat) :
    ∀ (n : Nat) (acc : List Char), (∀ c ∈ acc, isDigit c = true) →
      ∀ c ∈ Nat.toDigitsCore 10 fuel n acc, isDigit c = true := by
  induction fuel with
  | zero => intro n acc h; simpa [Nat.toDigitsCore] using h
  | succ fuel ih =>
    intro n acc h
    have hd := (digitChar_isDigit (n % 10) (Nat.mod_lt _ (by norm_num))).1
    have hacc : ∀ c ∈ Nat.digitChar (n % 10) :: acc, isDigit c = true := by
      intro c hc
      rcases List.mem_cons.mp hc with rfl | hc
      · exact hd
      · exact h c hc
    simp only [Nat.toDigitsCore]
    split
    · exact hacc
    · exact ih _ _ hacc

theorem toDigitsCore_ne_nil (fuel : Nat) :
    ∀ (n : Nat) (acc : List Char), acc ≠ [] → Nat.toDigitsCore 10 fuel n acc ≠ [] := by
  induction fuel with
  | zero => intro n acc h; simpa [Nat.toDigitsCore] using h
  | succ fuel ih =>
    intro n acc _
    simp only [Nat.toDigitsCore]
    split
    · simp
    · exact ih _ _ (by simp)

theorem toDigitsCore_value (fuel : Nat) :
    ∀ (n : Nat) (acc : List Char), n < fuel →
      (Nat.toDigitsCore 10 fuel n acc).foldl (fun v c => 10 * v + digitVal c) 0
        = acc.foldl (fun v c => 10 * v + digitVal c) n := by
  induction fuel with
  | zero => intro n acc h; omega
  | succ fuel ih =>
    intro n acc hn
    have hd := (digitChar_isDigit (n % 10) (Nat.mod_lt _ (by norm_num))).2
    simp only [Nat.toDigitsCore]
    split
    · rename_i h0
      simp only [List.foldl_cons, hd]
      congr 1
      omega
    · rename_i h0
      rw [ih _ _ (by omega)]
      simp only [List.foldl_cons, hd]
      congr 1
      omega

/-- The decimal digits of `n`: a non-empty run of digits of value `n`. -/
theorem toDigits_spec (n : Nat) :
    Nat.toDigits 10 n ≠ [] ∧ (∀ c ∈ Nat.toDigits 10 n, isDigit c = true) ∧
      decVal (Nat.toDigits 10 n) = n := by
  unfold Nat.toDigits
  refine ⟨?_, toDigitsCore_digits _ _ _ (by simp), ?_⟩
  · simp only [Nat.toDigitsCore]
    split
    · simp
    · exact toDigitsCore_ne_nil _ _ _ (by simp)
  · unfold decVal
    rw [toDigitsCore_value _ _ _ (by omega)]
    simp

theorem groupRev_filter (l : List Char) (h : ∀ c ∈ l, c ≠ ',') :
    (groupRev l).filter (fun c => c != ',') = l := by
  induction l using groupRev.induct with
  | case1 a b c d rest ih =>
    have ha : a ≠ ',' := h a (by simp)
    have hb : b ≠ ',' := h b (by simp)
    have hc : c ≠ ',' := h c (by simp)
    have hr : ∀ x ∈ d :: rest, x ≠ ',' := fun x hx => h x (by
      simp only [List.mem_cons] at hx ⊢
      tauto)
    simp only [groupRev]
    simp [List.filter_cons, ha, hb, hc]
    simpa using ih hr
  | case2 l hl =>
    have h1 : groupRev l = l := by
      unfold groupRev
      split
      · exact absurd rfl (hl _ _ _ _ _)
      · rfl
    rw [h1]
    exact List.filter_eq_self.mpr (fun c hc => by simpa using h c hc)

theorem isDigit_ne_comma (c : Char) (h : isDigit c = true) : c ≠ ',' := by
  rintro rfl
  exact absurd h (by decide)

/-- Removing the commas from the grouped digits of `n` gives back its decimal digits. -/
theorem removeCommas_groupNat (n : Nat) :
    removeCommas ⟨groupNat n⟩ = ⟨Nat.toDigits 10 n⟩ := by
  unfold removeCommas groupNat
  have h := groupRev_filter (Nat.toDigits 10 n).reverse (by
    intro c hc
    exact isDigit_ne_comma c ((toDigits_spec n).2.1 c (List.mem_reverse.mp hc)))
  simp only [List.filter_reverse, h, List.reverse_reverse]

theorem matchTail_nondigit (l : List Char) (h : matchTail l = true) :
    ∃ c ∈ l, isDigit c = false := by
  cases l with
  | nil => exact absurd h (by decide)
  | cons c t =>
    refine ⟨c, List.mem_cons_self _ _, ?_⟩
    by_contra hc
    have hc : isDigit c = true := by simpa using hc
    have hr : c ≠ 'r' := by rintro rfl; exact absurd hc (by decide)
    have hm : c ≠ 'm' := by rintro rfl; exact absurd hc (by decide)
    have hu : c ≠ 'u' := by rintro rfl; exact absurd hc (by decide)
    simp [matchTail, List.isPrefixOf, hr, hm, hu] at h
    exact hr h.1.symm

theorem matchDigits_nondigit (l : List Char) (h : matchDigits l = true) :
    ∃ c ∈ l, isDigit c = false := by
  induction l with
  | nil => exact absurd h (by decide)
  | cons c t ih =>
    simp only [matchDigits, Bool.or_eq_true, Bool.and_eq_true] at h
    rcases h with h | ⟨_, h⟩
    · exact matchTail_nondigit _ h
    · obtain ⟨x, hx, hxd⟩ := ih h
      exact ⟨x, List.mem_cons_of_mem _ hx, hxd⟩

theorem matchAnywhere_nondigit (l : List Char) (h : matchAnywhere l = true) :
    ∃ c ∈ l, isDigit c = false := by
  induction l with
  | nil => exact absurd h (by decide)
  | cons c t ih =>
    simp only [matchAnywhere, matchHere, Bool.or_eq_true, Bool.and_eq_true] at h
    rcases h with ⟨_, h⟩ | h
    · obtain ⟨x, hx, hxd⟩ := matchDigits_nondigit _ h
      exact ⟨x, List.mem_cons_of_mem _ hx, hxd⟩
    · obtain ⟨x, hx, hxd⟩ := ih h
      exact ⟨x, List.mem_cons_of_mem _ hx, hxd⟩

/-- A run of digits does not contain the amount pattern. -/
theorem MatchString_digits (s : String) (h : ∀ c ∈ s.data, isDigit c = true) :
    MatchString s = false := by
  by_contra hm
  have hm : matchAnywhere s.data = true := by simpa [MatchString] using hm
  obtain ⟨c, hc, hcd⟩ := matchAnywhere_nondigit _ hm
  rw [h c hc] at hcd
  exact Bool.noConfusion hcd

theorem groupNat_ne_nil (n : Nat) : groupNat n ≠ [] := by
  intro h
  have h1 := removeCommas_groupNat n
  rw [h] at h1
  have h2 : Nat.toDigits 10 n = [] := by
    have := congrArg String.data h1
    simpa [removeCommas] using this.symm
  exact (toDigits_spec n).1 h2

/-- C8: for every integer `n` with `0 ≤ n ≤ 2 ^ 63 - 1` (held by a `types.Int` whose string form
is not empty), `Format` succeeds with a string `g` and `Parse g` succeeds and returns the
unsigned integer `n`. -/
theorem Parse_Format_Int (ovf : Int → Int) (dvr : DefaultValueRenderer) (s : String) (n : Int)
    (hs : s ≠ "") (h0 : 0 ≤ n) (hn : n ≤ 2 ^ 63 - 1) :
    ∃ g, Format ovf dvr (.Int s n) = some (g, none) ∧ Parse g = .ok (.Uint n.toNat) := by
  have hfit : IsInt64 n = true := by
    rw [IsInt64_iff]
    omega
  have hlen : ¬ s.length = 0 := fun h => hs (String_length_eq_zero s h)
  refine ⟨Sprintf n, by simp [Format, hlen, Int64, hfit], ?_⟩
  have hS : Sprintf n = ⟨groupNat n.toNat⟩ := by
    unfold Sprintf
    rw [if_neg (by omega)]
    congr 2
    omega
  rw [hS]
  have hne : (⟨groupNat n.toNat⟩ : String) ≠ "" := by
    intro h
    exact groupNat_ne_nil _ (congrArg String.data h)
  obtain ⟨hd1, hd2, hd3⟩ := toDigits_spec n.toNat
  have hrc := removeCommas_groupNat n.toNat
  have hno : MatchString (removeCommas ⟨groupNat n.toNat⟩) = false := by
    rw [hrc]
    exact MatchString_digits _ hd2
  have hlit : uintLiteral (removeCommas ⟨groupNat n.toNat⟩).data := by
    rw [hrc]
    refine ⟨hd1, hd2, ?_⟩
    rw [hd3]
    omega
  have := Parse_of_uintLiteral _ hne hno hlit
  rw [this, hrc]
  simp only [hd3]

/-- C8, witness: 1234567 is formatted as `1,234,567`, which parses back to 1234567. -/
theorem Parse_Format_Int_witness :
    (∃ g, Format id ⟨regenMetadata⟩ (.Int "1234567" 1234567) = some (g, none) ∧
      Parse g = .ok (.Uint (1234567 : Int).toNat)) ∧
    Format id ⟨regenMetadata⟩ (.Int "1234567" 1234567) = some ("1,234,567", none) ∧
    Parse "1,234,567" = .ok (.Uint 1234567) :=
  ⟨Parse_Format_Int id ⟨regenMetadata⟩ "1234567" 1234567 (by decide) (by decide) (by decide),
   by decide, by decide⟩

/-! ## C9: amount round trip -/

theorem scan_same (d : String) :
    ∀ (units : List DenomUnit) (st : Int × Int), st.1 = st.2 →
      (units.foldl (scanStep d d) st).1 = (units.foldl (scanStep d d) st).2 := by
  intro units
  induction units with
  | nil => intro st h; simpa using h
  | cons u us ih =>
    intro st h
    simp only [List.foldl_cons]
    apply ih
    simp only [scanStep, h]

/-- A coin already expressed in the display unit is not rescaled. -/
theorem ComputeAmount_display (ovf : Int → Int) (dvr : DefaultValueRenderer) (coin : Coin)
    (hc : coin.Denom = dvr.metaData.Display) (hfit : IsInt64 coin.Amount = true) :
    ComputeAmount ovf dvr coin = some coin.Amount := by
  unfold ComputeAmount
  have h := scan_same dvr.metaData.Display dvr.metaData.DenomUnits (0, 0) rfl
  have h' : (scanExponents dvr coin).1 = (scanExponents dvr coin).2 := by
    unfold scanExponents
    rw [hc]
    exact h
  have h1 : IsInt64 1 = true := by decide
  simp [h', float64ToInt64, h1, Int64, hfit]

theorem digitChar_ne_zero (d : Nat) (h0 : 0 < d) (h : d < 10) : Nat.digitChar d ≠ '0' := by
  interval_cases d <;> decide

theorem toDigitsCore_head (fuel : Nat) :
    ∀ (n : Nat) (acc : List Char), n < fuel → 0 < n →
      (Nat.toDigitsCore 10 fuel n acc).head? ≠ some '0' := by
  induction fuel with
  | zero => intro n acc h; omega
  | succ fuel ih =>
    intro n acc hn h0
    simp only [Nat.toDigitsCore]
    split
    · rename_i hz
      have hmod : 0 < n % 10 := by omega
      have := digitChar_ne_zero (n % 10) hmod (Nat.mod_lt _ (by norm_num))
      simpa using this
    · rename_i hz
      exact ih _ _ (by omega) (by omega)

/-- The decimal digits of a number have no leading zero. -/
theorem toDigits_head (n : Nat) :
    Nat.toDigits 10 n = ['0'] ∨ (Nat.toDigits 10 n).head? ≠ some '0' := by
  rcases Nat.eq_zero_or_pos n with rfl | hpos
  · left
    decide
  · right
    unfold Nat.toDigits
    exact toDigitsCore_head _ _ _ (by omega) hpos

/-- C9: for every renderer whose display name is one of `regen`, `mregen`, `uregen` and every
coin of that denomination with amount `a`, `0 ≤ a ≤ 2 ^ 63 - 1`, `Format` succeeds with a
string `g` and `Parse g` succeeds and returns the same coin. -/
theorem Parse_Format_Coin (ovf : Int → Int) (dvr : DefaultValueRenderer) (coin : Coin)
    (hd : dvr.metaData.Display = "regen" ∨ dvr.metaData.Display = "mregen"
      ∨ dvr.metaData.Display = "uregen")
    (hc : coin.Denom = dvr.metaData.Display)
    (h0 : 0 ≤ coin.Amount) (hn : coin.Amount ≤ 2 ^ 63 - 1) :
    ∃ g, Format ovf dvr (.Coin coin) = some (g, none) ∧ Parse g = .ok (.Coin coin) := by
  have hfit : IsInt64 coin.Amount = true := by
    rw [IsInt64_iff]
    omega
  have hCA := ComputeAmount_display ovf dvr coin hc hfit
  refine ⟨Sprintf coin.Amount ++ dvr.metaData.Display, by simp [Format, hCA], ?_⟩
  have hS : Sprintf coin.Amount = ⟨groupNat coin.Amount.toNat⟩ := by
    unfold Sprintf
    rw [if_neg (by omega)]
    congr 2
    omega
  obtain ⟨hd1, hd2, hd3⟩ := toDigits_spec coin.Amount.toNat
  have hw : (removeCommas dvr.metaData.Display).data = dvr.metaData.Display.data := by
    rcases hd with h | h | h <;> rw [h] <;> decide
  have hrc := congrArg String.data (removeCommas_groupNat coin.Amount.toNat)
  have hdata : (removeCommas (Sprintf coin.Amount ++ dvr.metaData.Display)).data
      = Nat.toDigits 10 coin.Amount.toNat ++ dvr.metaData.Display.data := by
    rw [hS]
    simp only [removeCommas, String.data_append, List.filter_append] at hrc hw ⊢
    rw [hrc, hw]
  have hrange : decVal (Nat.toDigits 10 coin.Amount.toNat) < 2 ^ 256 := by
    rw [hd3]
    have h63 : coin.Amount.toNat < 2 ^ 63 := by omega
    exact lt_trans h63 (by norm_num)
  rw [Parse_digits_denom _ _ _ hdata hd1 hd2 (toDigits_head _) hrange hd, hd3, ← hc]
  have : ((coin.Amount.toNat : Nat) : Int) = coin.Amount := by omega
  rw [this]

/-- C9, witness: 1234567 `regen` is formatted as `1,234,567regen`, which parses back. -/
theorem Parse_Format_Coin_witness :
    (∃ g, Format id ⟨regenMetadata⟩ (.Coin ⟨"regen", 1234567⟩) = some (g, none) ∧
      Parse g = .ok (.Coin ⟨"regen", 1234567⟩)) ∧
    Format id ⟨regenMetadata⟩ (.Coin ⟨"regen", 1234567⟩) = some ("1,234,567regen", none) ∧
    Parse "1,234,567regen" = .ok (.Coin ⟨"regen", 1234567⟩) :=
  ⟨Parse_Format_Coin id ⟨regenMetadata⟩ ⟨"regen", 1234567⟩ (by decide) (by decide) (by decide)
      (by decide),
   by decide, by decide⟩

/-! ## C10: empty input -/

/-- C10: `Parse` of the empty string fails with an empty-input error and returns no value, and
`Format` of a decimal or of an integer whose string form is empty fails with an empty-input
error and returns the empty string. -/
theorem empty_input_rejected :
    Parse "" = .error (.New "unable to parse empty string") ∧
    (∀ (ovf : Int → Int) (dvr : DefaultValueRenderer),
      Format ovf dvr (.Dec "") = some ("", some (.New "empty string"))) ∧
    (∀ (ovf : Int → Int) (dvr : DefaultValueRenderer) (i : Int),
      Format ovf dvr (.Int "" i) = some ("", some (.New "empty string"))) := by
  refine ⟨by decide, ?_, ?_⟩
  · intro ovf dvr
    simp [Format]
  · intro ovf dvr i
    simp [Format]

/-! ## C11: `Format` of a decimal without exactly one `.` -/

theorem splitChars_length (sep : Char) (l : List Char) :
    ∀ cur : List Char, (splitChars sep cur l).length = l.count sep + 1 := by
  induction l with
  | nil => intro cur; simp [splitChars]
  | cons c cs ih =>
    intro cur
    by_cases hc : c = sep
    · subst hc
      simp [splitChars, ih]
    · have hne : (c == sep) = false := by simpa using hc
      simp [splitChars, hc, ih, List.count_cons, hne]

/-- The number of segments of `strings.Split(s, ".")` is the number of `.` plus one. -/
theorem Split_length (s : String) : (Split s).length = s.data.count '.' + 1 := by
  unfold Split
  rw [List.length_map, splitChars_length]

/-- C11: for a decimal whose non-empty string form holds no `.` or at least two of them, so
that it does not split into exactly two segments, `Format` returns the empty string and no
error. -/
theorem Format_Dec_not_two (ovf : Int → Int) (dvr : DefaultValueRenderer) (s : String)
    (hs : s ≠ "") (hdots : s.data.count '.' ≠ 1) :
    Format ovf dvr (.Dec s) = some ("", none) := by
  have hlen : ¬ s.length = 0 := fun h => hs (String_length_eq_zero s h)
  have hL : (Split s).length ≠ 2 := by
    rw [Split_length]
    omega
  simp only [Format, hlen, if_false]
  rcases hS : Split s with _ | ⟨a, _ | ⟨b, _ | ⟨c, t⟩⟩⟩
  · rfl
  · rfl
  · rw [hS] at hL
    exact absurd rfl hL
  · rfl

/-- C11, witness: a string form without `.` and one with two of them. -/
theorem Format_Dec_not_two_witness :
    Format id ⟨regenMetadata⟩ (.Dec "12345") = some ("", none) ∧
    Format id ⟨regenMetadata⟩ (.Dec "1.2.3") = some ("", none) :=
  ⟨Format_Dec_not_two id ⟨regenMetadata⟩ "12345" (by decide) (by decide),
   Format_Dec_not_two id ⟨regenMetadata⟩ "1.2.3" (by decide) (by decide)⟩

/-! ## C12: a coin of an unlisted denomination -/

/-- C12 (amended): for a coin whose denomination is not among the denomination units, when the
display denomination has exponent 0 (or is not listed either) and the amount fits in a signed
64-bit integer, `ComputeAmount` returns the amount unchanged. -/
theorem ComputeAmount_unlisted (ovf : Int → Int) (dvr : DefaultValueRenderer) (coin : Coin)
    (hcoin : ∀ u ∈ dvr.metaData.DenomUnits, u.Denom ≠ coin.Denom)
    (hdisp : hasExponent dvr.metaData.DenomUnits dvr.metaData.Display 0)
    (hfit : IsInt64 coin.Amount = true) :
    ComputeAmount ovf dvr coin = some coin.Amount := by
  have hsrc : hasExponent dvr.metaData.DenomUnits coin.Denom 0 :=
    ⟨fun u hu hd => absurd hd (hcoin u hu), fun _ => rfl⟩
  unfold ComputeAmount
  rw [scanExponents_eq dvr coin 0 0 hsrc hdisp]
  have h1 : IsInt64 1 = true := by decide
  simp [float64ToInt64, h1, Int64, hfit]

/-- C12, witness: 42 `atom` with the `regen` units, displayed in `regen`. -/
theorem ComputeAmount_unlisted_witness :
    ComputeAmount id ⟨regenMetadata⟩ ⟨"atom", 42⟩ = some 42 :=
  ComputeAmount_unlisted id ⟨regenMetadata⟩ ⟨"atom", 42⟩ (by decide) (by decide) (by decide)

/-- C12, counterexample: `atom` is not among the units, yet 1 `atom` displayed in `uregen`
(exponent 6) is converted to 1000000: the unlisted denomination counts as exponent 0 and the
amount is scaled up. An amount of `2 ^ 63` has no result at all. -/
theorem ComputeAmount_unlisted_rescaled :
    (∀ u ∈ uregenMetadata.DenomUnits, u.Denom ≠ "atom") ∧
    ComputeAmount id ⟨uregenMetadata⟩ ⟨"atom", 1⟩ = some 1000000 ∧
    ComputeAmount id ⟨uregenMetadata⟩ ⟨"atom", 1⟩ ≠ some 1 ∧
    (∀ u ∈ regenMetadata.DenomUnits, u.Denom ≠ "atom") ∧
    ComputeAmount id ⟨regenMetadata⟩ ⟨"atom", 2 ^ 63⟩ = none := by
  refine ⟨by decide, by decide, by decide, by decide, by decide⟩

/-! ## C17: the boundary scan of `coinFromString` -/

theorem lastNonLetter_letters (s : List Char) (dflt : Int) :
    ∀ k, k ≤ s.length → (∀ c ∈ s, IsLetter c = true) → lastNonLetter s dflt k = dflt := by
  intro k
  induction k with
  | zero => intro _ _; rfl
  | succ k ih =>
    intro hk h
    have hmem : IsLetter (s.getD k ' ') = true := by
      apply h
      rw [List.getD_eq_getElem _ _ (by omega)]
      exact List.getElem_mem _
    simp only [lastNonLetter, hmem, if_true]
    exact ih (by omega) h

/-- A list with a byte that is no letter splits at its last such byte. -/
theorem exists_last_nonletter (l : List Char) (h : ∃ c ∈ l, IsLetter c = false) :
    ∃ pre x suf, l = pre ++ x :: suf ∧ IsLetter x = false ∧ ∀ c ∈ suf, IsLetter c = true := by
  induction l with
  | nil =>
    obtain ⟨c, hc, _⟩ := h
    simp at hc
  | cons a t ih =>
    by_cases ht : ∃ c ∈ t, IsLetter c = false
    · obtain ⟨pre, x, suf, hl, hx, hsuf⟩ := ih ht
      exact ⟨a :: pre, x, suf, by simp [hl], hx, hsuf⟩
    · have hall : ∀ c ∈ t, IsLetter c = true := by
        intro c hc
        by_contra hne
        exact ht ⟨c, hc, by simpa using hne⟩
      obtain ⟨c, hc, hcl⟩ := h
      rcases List.mem_cons.mp hc with rfl | hc
      · exact ⟨[], c, t, rfl, hcl, hall⟩
      · rw [hall c hc] at hcl
        exact Bool.noConfusion hcl

theorem coinFromString_nil (s : String) (h : s.data = []) :
    coinFromString s = .error (.New "no denom has been found") := by
  unfold coinFromString
  simp [h, lastNonLetter]

theorem coinFromString_last_nonletter (s : String) (pre : List Char) (x : Char)
    (hs : s.data = pre ++ [x]) (hx : IsLetter x = false) :
    coinFromString s = .error (.New "no denom has been found") := by
  have hidx : lastNonLetter s.data ((s.data.length : Int) - 1) s.data.length
      = (pre.length : Int) := by
    have hlen : s.data.length = pre.length + 1 + 0 := by simp [hs]
    rw [hlen, hs]
    exact lastNonLetter_boundary pre [] x _ hx (by simp) 0 (Nat.le_refl _)
  unfold coinFromString
  simp only [hidx]
  rw [if_pos (by rw [hs]; simp)]

theorem coinFromString_letters (s : String) (h : ∀ c ∈ s.data, IsLetter c = true) :
    coinFromString s = .error (.New "no denom has been found") := by
  unfold coinFromString
  simp only [lastNonLetter_letters s.data _ s.data.length (le_refl _) h, if_true]

/-- The split that `coinFromString` makes of a string that holds a byte that is no letter and
ends in a letter. -/
theorem coinFromString_inside (s : String) :
    ¬ (s.data = [] ∨ (∃ x, s.data.getLast? = some x ∧ IsLetter x = false) ∨
        (∀ c ∈ s.data, IsLetter c = true)) →
      ∃ (pre suf : List Char) (x : Char),
        s.data = (pre ++ [x]) ++ suf ∧ IsLetter x = false ∧
        suf ≠ [] ∧ (∀ c ∈ suf, IsLetter c = true) ∧
        lastNonLetter s.data ((s.data.length : Int) - 1) s.data.length = (pre.length : Int) ∧
        pre.length + 1 < s.data.length ∧
        s.data.take (pre.length + 1) = pre ++ [x] ∧ s.data.drop (pre.length + 1) = suf ∧
        (∀ a c, NewIntFromString ⟨pre ++ [x]⟩ = some a → NewCoin ⟨suf⟩ a = some c →
          coinFromString s = .ok c) ∧
        (∀ a, NewIntFromString ⟨pre ++ [x]⟩ = some a → NewCoin ⟨suf⟩ a = none →
          coinFromString s = .abort) ∧
        (NewIntFromString ⟨pre ++ [x]⟩ = none →
          coinFromString s = .error (.New "unable convert amountStr to int64")) := by
  intro hnot
  have hnl : ∃ c ∈ s.data, IsLetter c = false := by
    by_contra hno
    apply hnot
    right; right
    intro c hc
    by_contra hne
    exact hno ⟨c, hc, by simpa using hne⟩
  obtain ⟨pre, x, suf, hl, hx, hsuf⟩ := exists_last_nonletter s.data hnl
  have hne : suf ≠ [] := by
    rintro rfl
    apply hnot
    right; left
    exact ⟨x, by rw [hl]; simp, hx⟩
  have hl' : s.data = (pre ++ [x]) ++ suf := by rw [hl]; simp
  have hsplit := coinFromString_split s pre suf x hl hx hsuf hne
  have hpos : 0 < suf.length := List.length_pos.mpr hne
  refine ⟨pre, suf, x, hl', hx, hne, hsuf, ?_, ?_, ?_, ?_, ?_, ?_, ?_⟩
  · have hlen : s.data.length = pre.length + 1 + suf.length := by
      simp [hl]; omega
    rw [hlen, hl]
    exact lastNonLetter_boundary pre suf x _ hx hsuf suf.length (Nat.le_refl _)
  · rw [hl]; simp; omega
  · rw [hl']
    exact List.take_left' (by simp)
  · rw [hl']
    exact List.drop_left' (by simp)
  · intro a c ha hc
    rw [hsplit, ha]
    simp only [hc]
  · intro a ha hc
    rw [hsplit, ha]
    simp only [hc]
  · intro ha
    rw [hsplit, ha]

/-- C17: `coinFromString` fails with "no denom has been found" exactly when the string is empty,
or its last byte is no letter, or every byte is a letter. In every other case the string is
`(pre ++ [x]) ++ suf` with `x` the last byte that is no letter: the index found is the position
of `x`, strictly before the last position, the denomination `suf` is the maximal non-empty
trailing run of letters, the numeric part `pre ++ [x]` is the non-empty rest before it, and the
result is decided by the reading of the numeric part and the validation of the coin. -/
theorem coinFromString_boundary (s : String) :
    (coinFromString s = .error (.New "no denom has been found") ↔
      (s.data = [] ∨ (∃ x, s.data.getLast? = some x ∧ IsLetter x = false) ∨
        (∀ c ∈ s.data, IsLetter c = true))) ∧
    (¬ (s.data = [] ∨ (∃ x, s.data.getLast? = some x ∧ IsLetter x = false) ∨
        (∀ c ∈ s.data, IsLetter c = true)) →
      ∃ (pre suf : List Char) (x : Char),
        s.data = (pre ++ [x]) ++ suf ∧ IsLetter x = false ∧
        suf ≠ [] ∧ (∀ c ∈ suf, IsLetter c = true) ∧
        lastNonLetter s.data ((s.data.length : Int) - 1) s.data.length = (pre.length : Int) ∧
        pre.length + 1 < s.data.length ∧
        s.data.take (pre.length + 1) = pre ++ [x] ∧ s.data.drop (pre.length + 1) = suf ∧
        (∀ a c, NewIntFromString ⟨pre ++ [x]⟩ = some a → NewCoin ⟨suf⟩ a = some c →
          coinFromString s = .ok c) ∧
        (∀ a, NewIntFromString ⟨pre ++ [x]⟩ = some a → NewCoin ⟨suf⟩ a = none →
          coinFromString s = .abort) ∧
        (NewIntFromString ⟨pre ++ [x]⟩ = none →
          coinFromString s = .error (.New "unable convert amountStr to int64"))) := by
  have other := coinFromString_inside s
  refine ⟨⟨?_, ?_⟩, other⟩
  · intro herr
    by_contra hnot
    obtain ⟨pre, suf, x, _, _, _, _, _, _, _, _, hok, hpanic, hbad⟩ := other hnot
    cases hN : NewIntFromString ⟨pre ++ [x]⟩ with
    | none =>
      rw [hbad hN] at herr
      exact absurd herr (by decide)
    | some a =>
      cases hC : NewCoin ⟨suf⟩ a with
      | none =>
        rw [hpanic a hN hC] at herr
        exact Outcome.noConfusion herr
      | some c =>
        rw [hok a c hN hC] at herr
        exact Outcome.noConfusion herr
  · rintro (h | ⟨x, hlast, hx⟩ | h)
    · exact coinFromString_nil s h
    · obtain ⟨pre, hpre⟩ := List.getLast?_eq_some_iff.mp hlast
      exact coinFromString_last_nonletter s pre x hpre hx
    · exact coinFromString_letters s h

/-! ## C13: the denomination that `Parse` returns -/

theorem scanDigitVal_r_excluded (c : Char) (h : c = '_' ∨ scanDigitVal c < 16) : c ≠ 'r' := by
  rintro rfl
  rcases h with h | h
  · exact absurd h (by decide)
  · exact absurd h (by decide)

/-- A digit loop of a base up to 16 that uses up its input has read no `r`. -/
theorem scanLoop_consumed (b : Nat) (hb : b ≤ 16) (l : List Char) :
    ∀ st : ScanState, (scanLoop b st l).2 = [] → ∀ c ∈ l, c ≠ 'r' := by
  induction l with
  | nil => intro st _ c hc; simp at hc
  | cons ch rest ih =>
    intro st h c hc
    simp only [scanLoop] at h
    split at h
    · rename_i hsep
      rcases List.mem_cons.mp hc with rfl | hc
      · exact scanDigitVal_r_excluded _ (Or.inl hsep)
      · exact ih _ h c hc
    · split at h
      · exact absurd h (List.cons_ne_nil _ _)
      · rename_i hlt
        rcases List.mem_cons.mp hc with rfl | hc
        · exact scanDigitVal_r_excluded _ (Or.inr (by omega))
        · exact ih _ h c hc

/-- An unsigned scan that uses up its input has read no `r`. -/
theorem natScan_consumed (l : List Char) (h : (natScan l).2 = []) : ∀ c ∈ l, c ≠ 'r' := by
  unfold natScan at h
  split at h
  · intro c hc
    simp only [List.mem_singleton] at hc
    subst hc
    decide
  · rename_i ch rest
    have h0 : ('0' : Char) ≠ 'r' := by decide
    split at h
    · rename_i hch
      have hne : ch ≠ 'r' := by rcases hch with rfl | rfl <;> decide
      intro c hc
      simp only [List.mem_cons] at hc
      rcases hc with rfl | rfl | hc
      · exact h0
      · exact hne
      · exact scanLoop_consumed 2 (by norm_num) rest _ h c hc
    · split at h
      · rename_i hch
        have hne : ch ≠ 'r' := by rcases hch with rfl | rfl <;> decide
        intro c hc
        simp only [List.mem_cons] at hc
        rcases hc with rfl | rfl | hc
        · exact h0
        · exact hne
        · exact scanLoop_consumed 8 (by norm_num) rest _ h c hc
      · split at h
        · rename_i hch
          have hne : ch ≠ 'r' := by rcases hch with rfl | rfl <;> decide
          intro c hc
          simp only [List.mem_cons] at hc
          rcases hc with rfl | rfl | hc
          · exact h0
          · exact hne
          · exact scanLoop_consumed 16 (by norm_num) rest _ h c hc
        · intro c hc
          rcases List.mem_cons.mp hc with rfl | hc
          · exact h0
          · exact scanLoop_consumed 8 (by norm_num) (ch :: rest) _ h c hc
  · exact scanLoop_consumed 10 (by norm_num) l _ h

theorem natScan_result_consumed (l : List Char) (a : Int)
    (h : (match natScan l with
          | (some v, []) => some (v : Int)
          | _ => none) = some a) : (natScan l).2 = [] := by
  rcases hN : natScan l with ⟨r, u⟩
  rw [hN] at h
  cases r with
  | none => simp at h
  | some v =>
    cases u with
    | nil => rfl
    | cons x t => simp at h

theorem natScan_neg_consumed (l : List Char) (a : Int)
    (h : (match natScan l with
          | (some v, []) => some (-(v : Int))
          | _ => none) = some a) : (natScan l).2 = [] := by
  rcases hN : natScan l with ⟨r, u⟩
  rw [hN] at h
  cases r with
  | none => simp at h
  | some v =>
    cases u with
    | nil => rfl
    | cons x t => simp at h

/-- A string that `SetString` reads holds no `r`. -/
theorem SetString_no_r (s : String) (a : Int) (h : SetString s = some a) :
    ∀ c ∈ s.data, c ≠ 'r' := by
  unfold SetString at h
  split at h
  · exact Option.noConfusion h
  · rename_i rest hs
    intro c hc
    rw [hs] at hc
    rcases List.mem_cons.mp hc with rfl | hc
    · decide
    · exact natScan_consumed rest (natScan_neg_consumed rest a h) c hc
  · rename_i rest hs
    intro c hc
    rw [hs] at hc
    rcases List.mem_cons.mp hc with rfl | hc
    · decide
    · exact natScan_consumed rest (natScan_result_consumed rest a h) c hc
  · exact natScan_consumed _ (natScan_result_consumed _ a h)

theorem NewIntFromString_no_r (s : String) (a : Int) (h : NewIntFromString s = some a) :
    ∀ c ∈ s.data, c ≠ 'r' := by
  unfold NewIntFromString at h
  cases hS : SetString s with
  | none =>
    rw [hS] at h
    exact Option.noConfusion h
  | some i => exact SetString_no_r s i hS

theorem NewCoin_some (denom : String) (a : Int) (c : Coin) (h : NewCoin denom a = some c) :
    c = ⟨denom, a⟩ ∧ 0 ≤ a ∧ ValidateDenom denom = true := by
  unfold NewCoin at h
  by_cases hv : ValidateDenom denom = true ∧ 0 ≤ a
  · rw [if_pos hv] at h
    exact ⟨(Option.some.inj h).symm, hv.2, hv.1⟩
  · rw [if_neg hv] at h
    exact Option.noConfusion h

/-- What a successful `coinFromString` has done: the string is a numeric part that ends in its
last byte that is no letter, followed by a non-empty run of letters; the numeric part was read
as an integer that is not negative, and the letters are the denomination. -/
theorem coinFromString_ok (s : String) (c : Coin) (h : coinFromString s = .ok c) :
    ∃ (pre suf : List Char) (x : Char), s.data = (pre ++ [x]) ++ suf ∧ IsLetter x = false ∧
      suf ≠ [] ∧ (∀ ch ∈ suf, IsLetter ch = true) ∧
      NewIntFromString ⟨pre ++ [x]⟩ = some c.Amount ∧ 0 ≤ c.Amount ∧ c.Denom = ⟨suf⟩ := by
  by_cases hcase : s.data = [] ∨ (∃ x, s.data.getLast? = some x ∧ IsLetter x = false) ∨
        (∀ c ∈ s.data, IsLetter c = true)
  · exfalso
    rcases hcase with h1 | ⟨x, hlast, hx⟩ | h3
    · rw [coinFromString_nil s h1] at h
      exact Outcome.noConfusion h
    · obtain ⟨pre, hpre⟩ := List.getLast?_eq_some_iff.mp hlast
      rw [coinFromString_last_nonletter s pre x hpre hx] at h
      exact Outcome.noConfusion h
    · rw [coinFromString_letters s h3] at h
      exact Outcome.noConfusion h
  · obtain ⟨pre, suf, x, hl, hx, hne, hsuf, _, _, _, _, hok, hpanic, hbad⟩ :=
      coinFromString_inside s hcase
    cases hN : NewIntFromString ⟨pre ++ [x]⟩ with
    | none =>
      rw [hbad hN] at h
      exact Outcome.noConfusion h
    | some a =>
      cases hC : NewCoin ⟨suf⟩ a with
      | none =>
        rw [hpanic a hN hC] at h
        exact Outcome.noConfusion h
      | some c2 =>
        rw [hok a c2 hN hC] at h
        have hc : c2 = c := Outcome.ok.inj h
        subst hc
        obtain ⟨h1, h2, _⟩ := NewCoin_some _ _ _ hC
        refine ⟨pre, suf, x, hl, hx, hne, hsuf, ?_, ?_, ?_⟩
        · rw [h1]; exact hN
        · rw [h1]; exact h2
        · rw [h1]

theorem matchHere_digit (l : List Char) (h : matchHere l = true) :
    ∃ c ∈ l, isDigit c = true := by
  cases l with
  | nil => exact absurd h (by decide)
  | cons c t =>
    simp only [matchHere, Bool.and_eq_true] at h
    exact ⟨c, List.mem_cons_self _ _, h.1⟩

/-- The amount pattern needs a digit. -/
theorem matchAnywhere_digit (l : List Char) (h : matchAnywhere l = true) :
    ∃ c ∈ l, isDigit c = true := by
  induction l with
  | nil => exact absurd h (by decide)
  | cons c t ih =>
    simp only [matchAnywhere, Bool.or_eq_true] at h
    rcases h with h | h
    · exact matchHere_digit _ h
    · obtain ⟨x, hx, hxd⟩ := ih h
      exact ⟨x, List.mem_cons_of_mem _ hx, hxd⟩

/-- The tail of the amount pattern does not begin inside a numeric part that holds no `r` and
ends in a byte that is no letter. -/
theorem matchTail_numeric (A S : List Char) (hne : A ≠ []) (hr : ∀ c ∈ A, c ≠ 'r')
    (hlast : IsLetter (A.getLast hne) = false) : matchTail (A ++ S) = false := by
  have hm : IsLetter 'm' = true := by decide
  have hu : IsLetter 'u' = true := by decide
  cases A with
  | nil => exact absurd rfl hne
  | cons c t =>
    have hc : c ≠ 'r' := hr c (List.mem_cons_self _ _)
    cases t with
    | nil =>
      have hx : IsLetter c = false := by simpa using hlast
      have hcm : c ≠ 'm' := by rintro rfl; rw [hm] at hx; exact Bool.noConfusion hx
      have hcu : c ≠ 'u' := by rintro rfl; rw [hu] at hx; exact Bool.noConfusion hx
      simp [matchTail, List.isPrefixOf, hc, Ne.symm hc, hcm, hcu]
    | cons y t2 =>
      have hy : y ≠ 'r' := hr y (by simp)
      simp [matchTail, List.isPrefixOf, Ne.symm hc, Ne.symm hy]

theorem matchDigits_numeric (A S : List Char) (hr : ∀ c ∈ A, c ≠ 'r')
    (hlast : ∀ hne : A ≠ [], IsLetter (A.getLast hne) = false)
    (hS : ∀ c ∈ S, isDigit c = false) (h : matchDigits (A ++ S) = true) :
    matchTail S = true := by
  induction A with
  | nil =>
    cases S with
    | nil => exact absurd h (by decide)
    | cons c t =>
      have hc : isDigit c = false := hS c (List.mem_cons_self _ _)
      simpa [matchDigits, hc] using h
  | cons c t ih =>
    have h1 : matchTail ((c :: t) ++ S) = false :=
      matchTail_numeric (c :: t) S (List.cons_ne_nil _ _) hr (hlast _)
    have h' : matchDigits (c :: (t ++ S)) = true := h
    have h1' : matchTail (c :: (t ++ S)) = false := h1
    simp only [matchDigits, h1', Bool.false_or, Bool.and_eq_true] at h'
    apply ih (fun x hx => hr x (List.mem_cons_of_mem _ hx)) _ h'.2
    intro hne
    have := hlast (List.cons_ne_nil c t)
    rwa [List.getLast_cons hne] at this

/-- In a numeric part without `r` that ends in a byte that is no letter, followed by bytes that
are no digits, the amount pattern ends at the start of the second part. -/
theorem matchAnywhere_numeric (A S : List Char) (hr : ∀ c ∈ A, c ≠ 'r')
    (hlast : ∀ hne : A ≠ [], IsLetter (A.getLast hne) = false)
    (hS : ∀ c ∈ S, isDigit c = false) (h : matchAnywhere (A ++ S) = true) :
    matchTail S = true := by
  induction A with
  | nil =>
    obtain ⟨c, hc, hcd⟩ := matchAnywhere_digit _ h
    rw [hS c hc] at hcd
    exact Bool.noConfusion hcd
  | cons c t ih =>
    have hlast' : ∀ hne : t ≠ [], IsLetter (t.getLast hne) = false := by
      intro hne
      have := hlast (List.cons_ne_nil c t)
      rwa [List.getLast_cons hne] at this
    have hr' : ∀ x ∈ t, x ≠ 'r' := fun x hx => hr x (List.mem_cons_of_mem _ hx)
    have h' : matchAnywhere (c :: (t ++ S)) = true := h
    simp only [matchAnywhere, matchHere, Bool.or_eq_true, Bool.and_eq_true] at h'
    rcases h' with ⟨_, h1⟩ | h2
    · exact matchDigits_numeric t S hr' hlast' hS h1
    · exact ih hr' hlast' h2

theorem matchTail_family (l : List Char) (h : matchTail l = true) :
    ∃ (w : String) (rest : List Char),
      (w = "regen" ∨ w = "mregen" ∨ w = "uregen") ∧ l = w.data ++ rest := by
  cases l with
  | nil => exact absurd h (by decide)
  | cons c t =>
    simp only [matchTail, Bool.or_eq_true, Bool.and_eq_true, beq_iff_eq] at h
    rcases h with h | ⟨hc | hc, h⟩
    · simp [List.isPrefixOf] at h
      obtain ⟨rfl, rest, hrest⟩ := h
      exact ⟨"regen", rest, Or.inl rfl, by rw [← hrest]; rfl⟩
    · subst hc
      simp at h
      obtain ⟨rest, hrest⟩ := h
      exact ⟨"mregen", rest, Or.inr (Or.inl rfl), by rw [← hrest]; rfl⟩
    · subst hc
      simp at h
      obtain ⟨rest, hrest⟩ := h
      exact ⟨"uregen", rest, Or.inr (Or.inr rfl), by rw [← hrest]; rfl⟩

theorem Parse_Coin_inv (s : String) (c : Coin) (h : Parse s = .ok (.Coin c)) :
    MatchString (removeCommas s) = true ∧ coinFromString (removeCommas s) = .ok c := by
  unfold Parse at h
  by_cases hs : s = ""
  · rw [if_pos hs] at h
    exact Outcome.noConfusion h
  · rw [if_neg hs] at h
    by_cases hm : MatchString (removeCommas s) = true
    · refine ⟨hm, ?_⟩
      simp only [hm, if_true] at h
      cases hc : coinFromString (removeCommas s) with
      | error e =>
        rw [hc] at h
        exact Outcome.noConfusion h
      | abort =>
        rw [hc] at h
        exact Outcome.noConfusion h
      | ok c2 =>
        rw [hc] at h
        simp only [Outcome.ok.injEq, Value.Coin.injEq] at h
        rw [h]
    · exfalso
      simp only [hm] at h
      rcases hP : ParseUint (removeCommas s) with ⟨v, e⟩
      rw [hP] at h
      cases e with
      | none =>
        simp [NewUint] at h
      | some e => simp at h

/-- C13 (amended): whenever `Parse` succeeds and returns a coin, the denomination of the coin
begins with one of `regen`, `mregen`, `uregen`; further letters may follow. -/
theorem Parse_denom_family (s : String) (c : Coin) (h : Parse s = .ok (.Coin c)) :
    ∃ (w : String) (rest : List Char),
      (w = "regen" ∨ w = "mregen" ∨ w = "uregen") ∧ c.Denom.data = w.data ++ rest := by
  obtain ⟨hm, hc⟩ := Parse_Coin_inv s c h
  obtain ⟨pre, suf, x, hl, hx, _, hsuf, hint, _, hden⟩ := coinFromString_ok _ c hc
  have hnd : ∀ ch ∈ suf, isDigit ch = false := by
    intro ch hch
    by_contra hd
    have := isDigit_not_letter ch (by simpa using hd)
    rw [hsuf ch hch] at this
    exact Bool.noConfusion this
  have hr : ∀ ch ∈ pre ++ [x], ch ≠ 'r' := NewIntFromString_no_r _ _ hint
  have hmt : matchTail suf = true := by
    apply matchAnywhere_numeric (pre ++ [x]) suf hr _ hnd
    · unfold MatchString at hm
      rw [hl] at hm
      exact hm
    · intro hne
      simpa using hx
  obtain ⟨w, rest, hw, hrest⟩ := matchTail_family suf hmt
  exact ⟨w, rest, hw, by rw [hden]; exact hrest⟩

/-- C13, witness: `5regenx` is parsed to the denomination `regenx`, which begins with `regen`. -/
theorem Parse_denom_family_witness :
    ∃ (w : String) (rest : List Char),
      (w = "regen" ∨ w = "mregen" ∨ w = "uregen") ∧
      (⟨"regenx", 5⟩ : Coin).Denom.data = w.data ++ rest :=
  Parse_denom_family "5regenx" ⟨"regenx", 5⟩ (by decide)

/-- C13, counterexample: `Parse` succeeds on `5regenx` and returns a coin whose denomination
`regenx` is none of `regen`, `mregen`, `uregen`. -/
theorem Parse_denom_outside_family :
    Parse "5regenx" = .ok (.Coin ⟨"regenx", 5⟩) ∧
    ¬ ("regenx" = "regen" ∨ "regenx" = "mregen" ∨ "regenx" = "uregen") := by
  refine ⟨by decide, by decide⟩

/-! ## C14: input of letters only -/

theorem removeCommas_no_comma (s : String) (h : ∀ c ∈ s.data, c ≠ ',') :
    removeCommas s = s := by
  unfold removeCommas
  have : s.data.filter (fun c => c != ',') = s.data :=
    List.filter_eq_self.mpr (fun c hc => by simpa using h c hc)
  rw [this]

theorem IsLetter_ne_comma (c : Char) (h : IsLetter c = true) : c ≠ ',' := by
  rintro rfl
  exact absurd h (by decide)

theorem IsLetter_not_digit (c : Char) (h : IsLetter c = true) : isDigit c = false := by
  by_contra hd
  have := isDigit_not_letter c (by simpa using hd)
  rw [h] at this
  exact Bool.noConfusion this

theorem ParseUint_head_nondigit (s : String) (c : Char) (t : List Char)
    (hs : s.data = c :: t) (hc : isDigit c = false) :
    ParseUint s = (0, some (.NumError "ParseUint" s .ErrSyntax)) := by
  have hne : s ≠ "" := by
    intro h
    rw [h] at hs
    exact List.noConfusion hs
  unfold ParseUint
  rw [if_neg hne, hs]
  simp [parseUintLoop, hc]

/-- C14 (amended): for a non-empty input that consists of letters only, `Parse` fails with the
syntax error of `strconv.ParseUint` on that input: without a digit the amount pattern does not
match, and `coinFromString` is not reached. -/
theorem Parse_letters (s : String) (hs : s ≠ "") (hl : ∀ c ∈ s.data, IsLetter c = true) :
    Parse s = .error (.NumError "ParseUint" s .ErrSyntax) := by
  have hrc : removeCommas s = s :=
    removeCommas_no_comma s (fun c hc => IsLetter_ne_comma c (hl c hc))
  have hno : MatchString s = false := by
    by_contra hm
    have hm : matchAnywhere s.data = true := by simpa [MatchString] using hm
    obtain ⟨c, hc, hcd⟩ := matchAnywhere_digit _ hm
    rw [IsLetter_not_digit c (hl c hc)] at hcd
    exact Bool.noConfusion hcd
  obtain ⟨c, t, hct⟩ := List.exists_cons_of_ne_nil (String_data_ne_nil s hs)
  have hP := ParseUint_head_nondigit s c t hct
    (IsLetter_not_digit c (hl c (by rw [hct]; exact List.mem_cons_self _ _)))
  unfold Parse
  rw [if_neg hs]
  simp only [hrc, hno, hP]
  rfl

/-- C14, witness: `abcdef`. -/
theorem Parse_letters_witness :
    Parse "abcdef" = .error (.NumError "ParseUint" "abcdef" .ErrSyntax) :=
  Parse_letters "abcdef" (by decide) (by decide)

/-- C14, counterexample: `abcdef` is not empty and holds letters only, and `Parse` does not fail
with "no denom has been found" but with the syntax error of `strconv.ParseUint`. -/
theorem Parse_letters_not_no_denom :
    "abcdef" ≠ "" ∧ (∀ c ∈ "abcdef".data, IsLetter c = true) ∧
    Parse "abcdef" = .error (.NumError "ParseUint" "abcdef" .ErrSyntax) ∧
    Parse "abcdef" ≠ .error (.New "no denom has been found") := by
  refine ⟨by decide, by decide, by decide, by decide⟩

/-! ## C15: an invalid numeric part -/

/-- C15: the code at `-5regen`. The comma-free input contains the amount pattern and ends in
letters, and its numeric part `-5` is no non-negative integer literal. The helper reads `-5`
as the integer -5, no error is returned, and the construction of the coin of -5 `regen`
panics: `Parse` does not return. A numeric part that is no integer literal at all, as in
`a1regen`, does give the error "unable convert amountStr to int64". -/
theorem Parse_negative_amount_aborts :
    MatchString (removeCommas "-5regen") = true ∧
    NewIntFromString "-5" = some (-5) ∧
    NewCoin "regen" (-5) = none ∧
    coinFromString "-5regen" = .abort ∧
    Parse "-5regen" = .abort ∧
    Parse "-5regen" ≠ .error (.New "unable convert amountStr to int64") ∧
    Parse "a1regen" = .error (.New "unable convert amountStr to int64") := by
  refine ⟨by decide, by decide, by decide, by decide, by decide, by decide, by decide⟩

/-! ## C16: formatting what `Parse` returns -/

/-- Parsing the grouped rendering of a non-negative `int64` gives back the number. -/
theorem Parse_Sprintf (n : Int) (h0 : 0 ≤ n) (hn : n ≤ 2 ^ 63 - 1) :
    Sprintf n ≠ "" ∧ Parse (Sprintf n) = .ok (.Uint n.toNat) := by
  have hS : Sprintf n = ⟨groupNat n.toNat⟩ := by
    unfold Sprintf
    rw [if_neg (by omega)]
    congr 2
    omega
  rw [hS]
  have hne : (⟨groupNat n.toNat⟩ : String) ≠ "" := by
    intro h
    exact groupNat_ne_nil _ (congrArg String.data h)
  obtain ⟨hd1, hd2, hd3⟩ := toDigits_spec n.toNat
  have hrc := removeCommas_groupNat n.toNat
  have hno : MatchString (removeCommas ⟨groupNat n.toNat⟩) = false := by
    rw [hrc]
    exact MatchString_digits _ hd2
  have hlit : uintLiteral (removeCommas ⟨groupNat n.toNat⟩).data := by
    rw [hrc]
    refine ⟨hd1, hd2, ?_⟩
    rw [hd3]
    omega
  refine ⟨hne, ?_⟩
  rw [Parse_of_uintLiteral _ hne hno hlit, hrc]
  simp only [hd3]

/-- C16 (amended): for every integer `n` with `0 ≤ n ≤ 2 ^ 63 - 1`, `Format` of the integer gives a
non-empty string `g`, and `Parse g` succeeds with the unsigned integer `n`, a `types.Uint`.
`Format` has no case for that kind: on the parsed value it returns the empty string and no
error. Formatting the number `n` again as a `types.Int` yields `g`. -/
theorem Format_Parse_Format (ovf : Int → Int) (dvr : DefaultValueRenderer) (s : String) (n : Int)
    (hs : s ≠ "") (h0 : 0 ≤ n) (hn : n ≤ 2 ^ 63 - 1) :
    ∃ g, Format ovf dvr (.Int s n) = some (g, none) ∧ g ≠ "" ∧
      Parse g = .ok (.Uint n.toNat) ∧
      Format ovf dvr (.Uint n.toNat) = some ("", none) ∧
      Format ovf dvr (.Int s (n.toNat : Int)) = some (g, none) := by
  have hfit : IsInt64 n = true := by
    rw [IsInt64_iff]
    omega
  have hlen : ¬ s.length = 0 := fun h => hs (String_length_eq_zero s h)
  have hF : Format ovf dvr (.Int s n) = some (Sprintf n, none) := by
    simp [Format, hlen, Int64, hfit]
  have hcast : ((n.toNat : Nat) : Int) = n := by omega
  obtain ⟨hne, hP⟩ := Parse_Sprintf n h0 hn
  exact ⟨Sprintf n, hF, hne, hP, rfl, by rw [hcast]; exact hF⟩

/-- C16, witness: the number 1234567. -/
theorem Format_Parse_Format_witness :
    ∃ g, Format id ⟨regenMetadata⟩ (.Int "1234567" 1234567) = some (g, none) ∧ g ≠ "" ∧
      Parse g = .ok (.Uint (1234567 : Int).toNat) ∧
      Format id ⟨regenMetadata⟩ (.Uint (1234567 : Int).toNat) = some ("", none) ∧
      Format id ⟨regenMetadata⟩ (.Int "1234567" ((1234567 : Int).toNat : Int)) = some (g, none) :=
  Format_Parse_Format id ⟨regenMetadata⟩ "1234567" 1234567 (by decide) (by decide) (by decide)

/-- C16, counterexample: 1234567 is formatted as `1,234,567`, which `Parse` reads as the
`types.Uint` 1234567; `Format` of that value is the empty string, not `1,234,567`. -/
theorem Format_of_parsed_is_empty :
    Format id ⟨regenMetadata⟩ (.Int "1234567" 1234567) = some ("1,234,567", none) ∧
    Parse "1,234,567" = .ok (.Uint 1234567) ∧
    Format id ⟨regenMetadata⟩ (.Uint 1234567) = some ("", none) ∧
    Format id ⟨regenMetadata⟩ (.Uint 1234567) ≠ some ("1,234,567", none) := by
  refine ⟨by decide, by decide, by decide, by decide⟩

/-! ## C18: the metadata setter -/

/-- C18: the code at a renderer that holds the `regen` display metadata, on which
`SetDenomMetadata` is called with the `uregen` display metadata. `GetDenomMetadata` on the
renderer still returns the old metadata, and `Format` still renders in `regen`; a renderer that
does hold the new metadata renders 1 `regen` as `1,000,000uregen`. The setter never changes
the renderer it is called on. -/
theorem SetDenomMetadata_no_effect :
    GetDenomMetadata (SetDenomMetadata ⟨regenMetadata⟩ uregenMetadata).1 = regenMetadata ∧
    GetDenomMetadata (SetDenomMetadata ⟨regenMetadata⟩ uregenMetadata).1 ≠ uregenMetadata ∧
    Format id (SetDenomMetadata ⟨regenMetadata⟩ uregenMetadata).1 (.Coin ⟨"regen", 1⟩)
      = some ("1regen", none) ∧
    Format id ⟨uregenMetadata⟩ (.Coin ⟨"regen", 1⟩) = some ("1,000,000uregen", none) ∧
    (∀ (dvr : DefaultValueRenderer) (m : Metadata),
      GetDenomMetadata (SetDenomMetadata dvr m).1 = GetDenomMetadata dvr) := by
  refine ⟨by decide, by decide, by decide, by decide, fun _ _ => rfl⟩

/-! ## C19: the sign of a decimal -/

/-- C19: the code at the decimal `-0.5`, whose integer segment `-0` is a valid signed 64-bit
literal (of value 0). `Format` returns `0.5`: removing the commas does not give back `-0.5`,
the sign is lost. The same happens on the 18-digit string form of that decimal. -/
theorem Format_Dec_sign_lost :
    intLiteralValue "-0".data = some 0 ∧
    Format id ⟨regenMetadata⟩ (.Dec "-0.5") = some ("0.5", none) ∧
    removeCommas "0.5" ≠ "-0.5" ∧
    Format id ⟨regenMetadata⟩ (.Dec "-0.500000000000000000")
      = some ("0.500000000000000000", none) := by
  refine ⟨by decide, by decide, by decide, by decide⟩

/-! ## C20: scaling up, then down -/

theorem pow10_fits (k : Nat) (hk : k ≤ 18) : IsInt64 ((10 : Int) ^ k) = true := by
  rw [IsInt64_iff]
  have h1 : (10 : Int) ^ k ≤ 10 ^ 18 := pow_le_pow_right₀ (by norm_num) hk
  have h2 : (0 : Int) < 10 ^ k := by positivity
  norm_num at h1 ⊢
  omega

/-- C20: let the units give the denominations `S` and `D` the exponents `eS ≤ eD` with
`eD - eS ≤ 18`, and let `a ≥ 0` with `a * 10 ^ (eD - eS) ≤ 2 ^ 63 - 1`. Converting the coin of
`a` `S` with a renderer that displays `D` gives `b = a * 10 ^ (eD - eS)`, and converting the
coin of `b` `D` with a renderer of the same units that displays `S` gives back `a`. -/
theorem ComputeAmount_up_down (ovf : Int → Int) (m1 m2 : Metadata) (S D : String)
    (eS eD : Nat) (a : Int)
    (hunits : m2.DenomUnits = m1.DenomUnits) (hd1 : m1.Display = D) (hd2 : m2.Display = S)
    (hS : hasExponent m1.DenomUnits S eS) (hD : hasExponent m1.DenomUnits D eD)
    (hle : eS ≤ eD) (h18 : eD - eS ≤ 18) (ha : 0 ≤ a)
    (hfit : a * 10 ^ (eD - eS) ≤ 2 ^ 63 - 1) :
    ∃ b, ComputeAmount ovf ⟨m1⟩ ⟨S, a⟩ = some b ∧ b = a * 10 ^ (eD - eS) ∧
      ComputeAmount ovf ⟨m2⟩ ⟨D, b⟩ = some a := by
  have hp : (0 : Int) < 10 ^ (eD - eS) := by positivity
  have hp1 : (1 : Int) ≤ 10 ^ (eD - eS) := by omega
  have hb0 : 0 ≤ a * 10 ^ (eD - eS) := mul_nonneg ha hp.le
  have hale : a ≤ a * 10 ^ (eD - eS) := by
    have := mul_le_mul_of_nonneg_left hp1 ha
    simpa using this
  have hbfit : IsInt64 (a * 10 ^ (eD - eS)) = true := by
    rw [IsInt64_iff]
    omega
  have hafit : IsInt64 a = true := by
    rw [IsInt64_iff]
    omega
  refine ⟨a * 10 ^ (eD - eS), ?_, rfl, ?_⟩
  · -- scale up, display `D`
    unfold ComputeAmount
    rw [scanExponents_eq ⟨m1⟩ ⟨S, a⟩ eS eD hS (by simpa [hd1] using hD)]
    have hneg : ¬ ((eD : Int) - (eS : Int)) < 0 := by omega
    have hk : ((eD : Int) - (eS : Int)).toNat = eD - eS := by omega
    simp only [if_neg hneg, hk, float64ToInt64, pow10_fits _ h18, if_true]
    exact Int64_of_fits _ hbfit
  · -- scale down, display `S`
    unfold ComputeAmount
    rw [scanExponents_eq ⟨m2⟩ ⟨D, a * 10 ^ (eD - eS)⟩ eD eS
      (by simpa [hunits] using hD) (by simpa [hunits, hd2] using hS)]
    by_cases heq : eS = eD
    · subst heq
      have h1 : IsInt64 1 = true := by decide
      simp [float64ToInt64, h1, Int64, hafit]
    · have hneg : ((eS : Int) - (eD : Int)) < 0 := by omega
      have hk : ((eS : Int) - (eD : Int)).natAbs = eD - eS := by omega
      simp only [if_pos hneg, hk, NewDecFromIntWithPrec]
      rw [if_pos (by simpa [Precision] using h18)]
      simp only [Option.bind, TruncateInt64]
      rw [scale_down_value _ _ hb0 h18, Int.mul_ediv_cancel _ hp.ne']
      exact Int64_of_fits _ hafit

/-- C20, witness: 7 `regen` displayed in `uregen`, and back. -/
theorem ComputeAmount_up_down_witness :
    ∃ b, ComputeAmount id ⟨uregenMetadata⟩ ⟨"regen", 7⟩ = some b ∧ b = 7 * 10 ^ (6 - 0) ∧
      ComputeAmount id ⟨regenMetadata⟩ ⟨"uregen", b⟩ = some 7 :=
  ComputeAmount_up_down id uregenMetadata regenMetadata "regen" "uregen" 0 6 7
    (by decide) (by decide) (by decide) (by decide) (by decide) (by decide) (by decide)
    (by decide) (by decide)

end ValueRenderer
